import Mathlib

/-!
Verification of the cubicle package engine and runner model.

This file gives a shallow embedding of the name-validation, package-registry
and package-update code of the repository (src/lib.rs, src/packages.rs,
src/bubblewrap.rs) and proves or refutes the frozen claims about it.

Rust strings are modelled as `List Char` (`&str` is a sequence of Unicode
scalar values).  Machine integers do not occur in the modelled code paths;
file times are modelled as `Nat` (SystemTime is an opaque ordered clock in
the code).  Fallible Rust functions returning `Result<T>` are modelled as
`Except (List Char) T`, with the error carrying the message string.
-/

namespace Cubicle

/-- Rust `char::is_ascii`: code point at most 0x7F. -/
def isAsciiC (c : Char) : Bool := c.toNat ≤ 0x7F

/-- Rust `char::is_ascii_alphanumeric`: 0-9, A-Z, a-z. -/
def isAsciiAlnumC (c : Char) : Bool :=
  (0x30 ≤ c.toNat && c.toNat ≤ 0x39) ||
  (0x41 ≤ c.toNat && c.toNat ≤ 0x5A) ||
  (0x61 ≤ c.toNat && c.toNat ≤ 0x7A)

/-- Rust `char::is_control`: the Unicode Cc category, i.e. U+0000..U+001F and
U+007F..U+009F. -/
def isCtrlC (c : Char) : Bool :=
  c.toNat < 0x20 || (0x7F ≤ c.toNat && c.toNat ≤ 0x9F)

/-- Rust `char::is_whitespace`: the Unicode White_Space property (the full
code-point list of Unicode 15, which `str::trim` also uses). -/
def isWhiteC (c : Char) : Bool :=
  let n := c.toNat
  (0x09 ≤ n && n ≤ 0x0D) || n = 0x20 || n = 0x85 || n = 0xA0 || n = 0x1680 ||
  (0x2000 ≤ n && n ≤ 0x200A) || n = 0x2028 || n = 0x2029 || n = 0x202F ||
  n = 0x205F || n = 0x3000

/-- Helper turning a Lean string literal into the `List Char` model of a
Rust `&str`. -/
def str (s : String) : List Char := s.data

/-- Rust `str::trim`: drop White_Space characters from both ends. -/
def trim (s : List Char) : List Char :=
  ((s.dropWhile isWhiteC).reverse.dropWhile isWhiteC).reverse

/-- The character test inside `PackageName::from_str` (src/packages.rs):
a character the parser rejects.  ASCII characters must be alphanumeric or
one of `-`, `_`, `.`; control characters and whitespace are rejected
everywhere. -/
def pkgBadChar (c : Char) : Bool :=
  (isAsciiC c && !isAsciiAlnumC c && !(c = '-' || c = '_' || c = '.')) ||
  isCtrlC c || isWhiteC c

/-- The character test inside `PackageNamespace::from_str` (src/packages.rs):
like `pkgBadChar` but `.` is also rejected. -/
def nsBadChar (c : Char) : Bool :=
  (isAsciiC c && !isAsciiAlnumC c && !(c = '-' || c = '_')) ||
  isCtrlC c || isWhiteC c

/-- The character test inside `EnvironmentName::from_str` (src/lib.rs):
same character class as for namespaces. -/
def envBadChar (c : Char) : Bool :=
  (isAsciiC c && !isAsciiAlnumC c && !(c = '-' || c = '_')) ||
  isCtrlC c || isWhiteC c

/-- `PackageName::from_str` (src/packages.rs lines 916-932): trim, reject
empty, reject special characters, keep the trimmed string. -/
def packageNameFromStr (s : List Char) : Except (List Char) (List Char) :=
  let t := trim s
  if t.isEmpty then .error (str "package name cannot be empty")
  else if t.any pkgBadChar then
    .error (str "package name cannot contain special characters")
  else .ok t

/-- A namespace for packages (src/packages.rs `PackageNamespace`).  `Managed`
carries the package manager's `PackageName`. -/
inductive PackageNamespace where
  | Root : PackageNamespace
  | Debian : PackageNamespace
  | Managed : List Char → PackageNamespace
deriving DecidableEq, Repr

/-- `PackageNamespace::as_str` (src/packages.rs). -/
def PackageNamespace.asStr : PackageNamespace → List Char
  | .Root => str "root"
  | .Debian => str "debian"
  | .Managed m => m

/-- `PackageNamespace::from_str` (src/packages.rs lines 965-987): trim,
reject empty and special characters, then map `"cubicle"` to `Root`,
`"debian"` to `Debian`, anything else to `Managed`. -/
def packageNamespaceFromStr (s : List Char) :
    Except (List Char) PackageNamespace :=
  let t := trim s
  if t.isEmpty then .error (str "package namespace cannot be empty")
  else if t.any nsBadChar then
    .error (str "package namespace cannot contain special characters")
  else if t = str "cubicle" then .ok .Root
  else if t = str "debian" then .ok .Debian
  else (packageNameFromStr t).map .Managed

/-- A fully-qualified package name (src/packages.rs `FullPackageName`). -/
structure FullPackageName where
  ns : PackageNamespace
  name : List Char
deriving DecidableEq, Repr

/-- `FullPackageName::unquoted` (src/packages.rs lines 1026-1032): Root
packages display as the bare name, others as `ns.name`. -/
def FullPackageName.unquoted (p : FullPackageName) : List Char :=
  if p.ns = .Root then p.name else p.ns.asStr ++ '.' :: p.name

/-- `FullPackageName::as_filename_component` (src/packages.rs): same as
`unquoted`. -/
def FullPackageName.asFilenameComponent (p : FullPackageName) : List Char :=
  p.unquoted

/-- Rust `str::split_once`: split at the first occurrence of `sep`, if any. -/
def splitOnce (sep : Char) : List Char → Option (List Char × List Char)
  | [] => none
  | c :: rest =>
    if c = sep then some ([], rest)
    else (splitOnce sep rest).map (fun q => (c :: q.1, q.2))

/-- `FullPackageName::from_str` (src/packages.rs lines 1049-1060): split the
trimmed input at the first `.`; with a separator parse namespace and name,
without one parse the whole (original) input as a Root package name. -/
def fullPackageNameFromStr (s : List Char) :
    Except (List Char) FullPackageName :=
  match splitOnce '.' (trim s) with
  | some (a, b) => do
    let ns ← packageNamespaceFromStr a
    let nm ← packageNameFromStr b
    .ok ⟨ns, nm⟩
  | none => (packageNameFromStr s).map (fun nm => ⟨.Root, nm⟩)

/-- Rust `char::escape_debug` as used by `Debug` for `String`, modelled on
the characters that can actually reach it here: a quote or backslash gains a
backslash, every other printable non-control character maps to itself.
(Control characters would be escaped differently, but neither a valid
`PackageName` nor the literals used in this file contain any.) -/
def escDbgChar (c : Char) : List Char :=
  if c = '"' || c = '\\' then ['\\', c] else [c]

/-- Rust `fmt::Debug` for `String`/`str`: the escaped text wrapped in double
quotes. -/
def rustDebugStr (s : List Char) : List Char :=
  '"' :: (s.flatMap escDbgChar) ++ ['"']

/-- `impl Display for PackageName` (src/packages.rs lines 934-938): it
delegates to `Debug::fmt` on the inner `String`, so the display form is the
quote-wrapped escaped string. -/
def displayPackageName (p : List Char) : List Char := rustDebugStr p

/-- `impl Display for FullPackageName` (src/packages.rs lines 1039-1047):
Root packages as `Debug` of the bare name, others as `"ns.name"` with
literal quotes and no escaping. -/
def displayFullPackageName (p : FullPackageName) : List Char :=
  if p.ns = .Root then rustDebugStr p.name
  else '"' :: (p.ns.asStr ++ '.' :: p.name) ++ ['"']

/-- `EnvironmentName::from_str` (src/lib.rs lines 525-555): trim, reject
empty, reject special characters, then reject multi-component and
non-normal paths.  For a non-empty string free of special characters the
`Path::components` checks amount to: more than one component iff the string
contains `/`; a single component is non-`Normal` iff the string is `.` or
`..` (both unreachable after the character check, which already rejects `/`
and `.`). -/
def environmentNameFromStr (s : List Char) : Except (List Char) (List Char) :=
  let t := trim s
  if t.isEmpty then .error (str "environment name cannot be empty")
  else if t.any envBadChar then
    .error (str "environment name cannot contain special characters")
  else if t.contains '/' then
    .error (str "environment name cannot have slashes")
  else if t = str "." || t = str ".." then
    .error (str "environment name cannot manipulate path")
  else .ok t

/-- `EnvironmentName::for_builder_package` (src/lib.rs lines 581-586):
format `package-{p}` with `Display` for `PackageName` and parse it as an
`EnvironmentName`; the Rust code unwraps the parse, so an `error` result
here is a panic in the code. -/
def forBuilderPackage (p : List Char) : Except (List Char) (List Char) :=
  environmentNameFromStr (str "package-" ++ displayPackageName p)

/-- A valid stored `PackageName`: what `packageNameFromStr` can produce
(non-empty and free of rejected characters; such a string contains no
whitespace, so it is its own trim). -/
def validPackageName (p : List Char) : Bool :=
  !p.isEmpty && !p.any pkgBadChar

/-- A valid stored namespace string for `Managed`: what
`packageNamespaceFromStr` can reach its `Managed` branch with. -/
def validNamespaceStr (m : List Char) : Bool :=
  !m.isEmpty && !m.any nsBadChar && !(m = str "cubicle") && !(m = str "debian")

/-- A `FullPackageName` value that the parser itself can produce: the name
is valid; a Root package name contains no `.` (otherwise the first `.`
would be taken as a namespace separator when re-parsing); a Managed
namespace is a valid namespace string other than `cubicle`/`debian`. -/
def canonicalFull (p : FullPackageName) : Bool :=
  validPackageName p.name &&
  match p.ns with
  | .Root => !p.name.contains '.'
  | .Debian => true
  | .Managed m => validNamespaceStr m

/-- A package manifest (the fields of `manifest::Manifest` consumed by
src/packages.rs).  Modelled from the spec: `manifest.rs` is not under
`src/`; per the spec a manifest carries `package_manager: bool` and two
namespace-keyed dependency tables (`depends`, `build_depends`), each table
a set of package names.  The tables are modelled as association lists; the
code assumes the Root entry of `depends` is present (it unwraps it). -/
structure Manifest where
  packageManager : Bool
  depends : List (PackageNamespace × List (List Char))
  buildDepends : List (PackageNamespace × List (List Char))
deriving DecidableEq, Repr

/-- `PackageSpec` (src/packages.rs lines 25-31): the manifest, the source
directory (kept as its `summarize_dir` latest mtime, the only use the
modelled code makes of it), and the optional `update.sh`/`test.sh`
scripts.  `origin` is display-only and dropped. -/
structure PackageSpec where
  manifest : Manifest
  dirMtime : Nat
  update : Option (List Char)
  test : Option (List Char)
deriving DecidableEq, Repr

/-- `PackageSpecs`: the `BTreeMap<PackageName, PackageSpec>` as an
association list (keys unique in the real map). -/
abbrev PackageSpecs := List (List Char × PackageSpec)

/-- `BTreeMap::get` on `PackageSpecs` (first matching key). -/
def findSpec (specs : PackageSpecs) (n : List Char) : Option PackageSpec :=
  (specs.find? (fun e => decide (e.1 = n))).map (fun e => e.2)

/-- The dependency edges a manifest contributes in `transitive_depends`:
all `depends` tables, then (when `build_depends` is requested) all
`build_depends` tables, each entry paired with its namespace. -/
def manifestDeps (m : Manifest) (bd : Bool) : List FullPackageName :=
  (m.depends ++ if bd then m.buildDepends else []).flatMap
    (fun e => e.2.map (fun n => (⟨e.1, n⟩ : FullPackageName)))

/-- The error message of `Visitor::visit` for a missing Root package
definition (src/packages.rs lines 97-104). -/
def notFoundMsg (p : FullPackageName) : Option FullPackageName → List Char
  | some other =>
    str "could not find package definition for " ++ displayFullPackageName p ++
      str ", needed by " ++ displayFullPackageName other
  | none => str "could not find package definition for " ++ displayFullPackageName p

/-- The error message of `Visitor::visit` for a missing package manager
definition (src/packages.rs lines 106-112). -/
def mgrNotFoundMsg (p : FullPackageName) : Option FullPackageName → List Char
  | some other =>
    str "could not find package definition for package manager " ++
      rustDebugStr p.ns.asStr ++ str ", needed by " ++ displayFullPackageName other
  | none => str "could not find package definition for " ++ displayFullPackageName p

/-- `Visitor::visit` of `transitive_depends` (src/packages.rs lines 84-134):
depth-first traversal with a visited list (insertion-ordered; the Rust
`BTreeSet` tracks membership only).  A fuel argument makes the recursion
structural; the fuel passed by `transitiveDepends` exceeds the depth any
successful traversal can reach, and exhaustion surfaces as an (unreachable)
internal error. -/
def visit (specs : PackageSpecs) (bd : Bool) :
    Nat → List FullPackageName → FullPackageName → Option FullPackageName →
    Except (List Char) (List FullPackageName)
  | 0, _, _, _ => .error (str "internal: visitor fuel exhausted")
  | fuel+1, visited, p, neededBy =>
    if visited.contains p then .ok visited
    else
      let visited := visited ++ [p]
      match p.ns with
      | .Debian => .ok visited
      | .Root =>
        match findSpec specs p.name with
        | none => .error (notFoundMsg p neededBy)
        | some spec =>
          (manifestDeps spec.manifest bd).foldlM
            (fun v q => visit specs bd fuel v q (some p)) visited
      | .Managed mgr =>
        match findSpec specs mgr with
        | none => .error (mgrNotFoundMsg p neededBy)
        | some spec =>
          if !spec.manifest.packageManager then
            .error (str "package " ++ rustDebugStr p.ns.asStr ++
              str " is not a package manager")
          else
            (manifestDeps spec.manifest bd).foldlM
              (fun v q => visit specs bd fuel v q (some p)) visited

/-- An upper bound on the visitor's recursion depth: every level of the
DFS adds at least one newly visited name, and visitable names come from
the roots or from some spec's dependency tables. -/
def transFuel (specs : PackageSpecs) (packages : List FullPackageName) : Nat :=
  specs.foldl (fun acc e => acc + 1 + (manifestDeps e.2.manifest true).length) 0 +
    packages.length + 2

/-- `transitive_depends` (src/packages.rs lines 73-145): visit every
requested package with an initially empty visited set. -/
def transitiveDepends (specs : PackageSpecs) (bd : Bool)
    (packages : List FullPackageName) : Except (List Char) (List FullPackageName) :=
  packages.foldlM (fun v p => visit specs bd (transFuel specs packages) v p none) []

/-- `ShouldPackageUpdate` (src/packages.rs lines 53-68). -/
inductive ShouldPackageUpdate where
  | Always : ShouldPackageUpdate
  | IfStale : ShouldPackageUpdate
  | IfRequired : ShouldPackageUpdate
deriving DecidableEq, Repr

/-- `UpdatePackagesConditions` (src/packages.rs lines 41-47). -/
structure UpdatePackagesConditions where
  dependencies : ShouldPackageUpdate
  named : ShouldPackageUpdate
deriving DecidableEq, Repr

/-- The contents of one cache file: its modification time and its bytes
(abstracted to a token, compared only for equality). -/
structure FileData where
  mtime : Nat
  content : Nat
deriving DecidableEq, Repr

/-- The mutable state `update_packages` acts on: the package-cache
directory as a map from file name to file data, plus the warnings emitted
so far (`somehow::warn` appends to stderr). -/
structure CacheState where
  files : List Char → Option FileData
  warnings : List (List Char)

/-- Overwrite-or-create a cache file. -/
def setFile (st : CacheState) (k : List Char) (v : FileData) : CacheState :=
  { st with files := fun x => if x = k then some v else st.files x }

/-- Remove a cache file if present (`remove_file` with `NotFound`
tolerated, as in `update_package`). -/
def removeFile (st : CacheState) (k : List Char) : CacheState :=
  { st with files := fun x => if x = k then none else st.files x }

/-- Emit a warning. -/
def addWarning (st : CacheState) (w : List Char) : CacheState :=
  { st with warnings := st.warnings ++ [w] }

/-- The cache file name `<name>.tar` (src/packages.rs `last_built`,
`update_package_`). -/
def tarName (p : FullPackageName) : List Char :=
  p.asFilenameComponent ++ str ".tar"

/-- The staging file name `<name>.testing.tar` (src/packages.rs line 520). -/
def testingTarName (p : FullPackageName) : List Char :=
  p.asFilenameComponent ++ str ".testing.tar"

/-- The failure marker name `<name>.failed` (src/packages.rs line 453). -/
def failedMarkerName (p : FullPackageName) : List Char :=
  p.asFilenameComponent ++ str ".failed"

/-- `Cubicle::last_built` (src/packages.rs lines 391-398): the mtime of the
cached artifact, if it exists. -/
def lastBuilt (st : CacheState) (p : FullPackageName) : Option Nat :=
  (st.files (tarName p)).map (fun fd => fd.mtime)

/-- The oracles standing for everything outside the modelled state: the
configured `auto_update` threshold, and the runner-side outcome of building
(`build_package` + `copy_out_from_home`, yielding the staged bytes) and of
testing a package.  `buildMtime` is the mtime the staged file receives. -/
structure World where
  autoUpdate : Option Nat
  buildResult : FullPackageName → Option Nat
  testOk : FullPackageName → Bool
  buildMtime : FullPackageName → Nat

/-- `Cubicle::package_is_stale` (src/packages.rs lines 400-435): stale when
there is no artifact; when the `auto_update` window has passed (or the
artifact is from the future, the `Err` arm of `duration_since`); when the
source directory is newer; or when the artifact of an immediate
`build_depends`/`depends` entry is newer.  `summarize_dir` is modelled as
always succeeding with `spec.dirMtime`. -/
def packageIsStale (w : World) (st : CacheState) (p : FullPackageName)
    (spec : PackageSpec) (now : Nat) : Bool :=
  match lastBuilt st p with
  | none => true
  | some built =>
    (match w.autoUpdate with
     | some threshold => decide (built > now) || decide (now - built > threshold)
     | none => false) ||
    decide (spec.dirMtime > built) ||
    (spec.manifest.buildDepends ++ spec.manifest.depends).any (fun e =>
      e.2.any (fun n =>
        match lastBuilt st ⟨e.1, n⟩ with
        | some b => decide (b > built)
        | none => false))

/-- `Cubicle::update_package_` (src/packages.rs lines 500-553): build via
the runner (oracle), stage the copied-out artifact as `.testing.tar`, run
the test if a `test.sh` exists, then rename the staging file onto
`<name>.tar`. -/
def updatePackageInner (w : World) (st : CacheState) (p : FullPackageName)
    (spec : PackageSpec) : Except (List Char) Unit × CacheState :=
  match w.buildResult p with
  | none => (.error (str "error building package " ++ displayFullPackageName p), st)
  | some content =>
    let st1 := setFile st (testingTarName p) ⟨w.buildMtime p, content⟩
    if spec.test.isSome && !w.testOk p then
      (.error (str "error testing package " ++ displayFullPackageName p), st1)
    else
      match st1.files (testingTarName p) with
      | some fd =>
        (.ok (), setFile (removeFile st1 (testingTarName p)) (tarName p) fd)
      | none =>
        (.error (str "failed to rename build output for " ++
          displayFullPackageName p), st1)

/-- `Cubicle::update_package` (src/packages.rs lines 446-498): on success
remove the `.failed` marker; on failure create the marker, and if a prior
`.tar` exists warn "using stale version of ..." and report success
(stale fallback), otherwise propagate the error.  Context strings are
flattened into the message by concatenation. -/
def updatePackage (w : World) (st : CacheState) (p : FullPackageName)
    (spec : PackageSpec) : Except (List Char) Unit × CacheState :=
  match updatePackageInner w st p spec with
  | (.ok _, st1) => (.ok (), removeFile st1 (failedMarkerName p))
  | (.error e, st1) =>
    let contexted := str "failed to update package: " ++
      displayFullPackageName p ++ str ": " ++ e
    let st2 := setFile st1 (failedMarkerName p) ⟨0, 0⟩
    if (st2.files (tarName p)).isSome then
      (.ok (), addWarning st2 (str "using stale version of " ++
        displayFullPackageName p ++ str ": " ++ contexted))
    else (.error contexted, st2)

/-- The spec lookup at the head of the update loop (src/packages.rs lines
319-333): Debian names never occur in `todo` (the `unreachable!()` arm),
Root names resolve directly, Managed names resolve through their manager,
which must be a package manager. -/
def lookupSpecFor (specs : PackageSpecs) (p : FullPackageName) :
    Except (List Char) PackageSpec :=
  match p.ns with
  | .Debian => .error (str "internal: debian package in update todo list")
  | .Root =>
    match findSpec specs p.name with
    | some spec => .ok spec
    | none =>
      .error (str "could not find definition for package " ++ rustDebugStr p.name)
  | .Managed mgr =>
    match findSpec specs mgr with
    | none =>
      .error (str "could not find definition for package manager " ++
        rustDebugStr mgr)
    | some spec =>
      if !spec.manifest.packageManager then
        .error (str "package " ++ rustDebugStr mgr ++ str " is not a package manager")
      else .ok spec

/-- The `deps_ready` check (src/packages.rs lines 335-345): every
non-Debian entry of `depends` and `build_depends` is already done. -/
def depsReady (spec : PackageSpec) (done : List FullPackageName) : Bool :=
  (spec.manifest.depends ++ spec.manifest.buildDepends).all (fun e =>
    decide (e.1 = .Debian) ||
      e.2.all (fun n => done.contains (⟨e.1, n⟩ : FullPackageName)))

/-- The `needs_build` decision (src/packages.rs lines 348-367): never build
without an `update.sh`; otherwise apply the condition selected by whether
the package was explicitly named. -/
def needsBuildFor (w : World) (st : CacheState) (conds : UpdatePackagesConditions)
    (packages : List FullPackageName) (now : Nat) (p : FullPackageName)
    (spec : PackageSpec) : Bool :=
  if spec.update.isNone then false
  else
    match (if packages.contains p then conds.named else conds.dependencies) with
    | .Always => true
    | .IfStale => packageIsStale w st p spec now
    | .IfRequired => (lastBuilt st p).isNone

/-- One `for full_name in todo` pass of the update loop (src/packages.rs
lines 318-375).  `done` records decided packages newest-first (the Rust
`BTreeSet` keeps membership only; the order is the ghost trace of
decisions); deferred packages accumulate in `later` in order. -/
def processPass (w : World) (specs : PackageSpecs) (conds : UpdatePackagesConditions)
    (packages : List FullPackageName) (now : Nat) :
    List FullPackageName → List FullPackageName → List FullPackageName → CacheState →
    Except (List Char) Unit × List FullPackageName × List FullPackageName × CacheState
  | [], done, later, st => (.ok (), done, later, st)
  | p :: rest, done, later, st =>
    match lookupSpecFor specs p with
    | .error e => (.error e, done, later, st)
    | .ok spec =>
      if depsReady spec done then
        if needsBuildFor w st conds packages now p spec then
          match updatePackage w st p spec with
          | (.ok _, st1) =>
            processPass w specs conds packages now rest (p :: done) later st1
          | (.error e, st1) => (.error e, done, later, st1)
        else processPass w specs conds packages now rest (p :: done) later st
      else processPass w specs conds packages now rest done (later ++ [p]) st

/-- Lexicographic order on strings by code point (Rust `str`/`String`
ordering; byte order of UTF-8 agrees with code-point order). -/
def lexLe : List Char → List Char → Bool
  | [], _ => true
  | _ :: _, [] => false
  | a :: as, b :: bs =>
    if a.toNat < b.toNat then true
    else if b.toNat < a.toNat then false
    else lexLe as bs

/-- `Ord for FullPackageName` (src/packages.rs lines 1007-1012): compare
the `unquoted` display strings. -/
def fullLe (a b : FullPackageName) : Bool := lexLe a.unquoted b.unquoted

/-- Insert into a `fullLe`-sorted list. -/
def insertSorted (a : FullPackageName) : List FullPackageName → List FullPackageName
  | [] => [a]
  | b :: bs => if fullLe a b then a :: b :: bs else b :: insertSorted a bs

/-- Sorting by `fullLe` (`Vec::sort`, and the iteration order a `BTreeSet`
of `FullPackageName` yields). -/
def sortNames : List FullPackageName → List FullPackageName
  | [] => []
  | a :: as => insertSorted a (sortNames as)

/-- `Vec::join(", ")` on display strings. -/
def joinComma : List (List Char) → List Char
  | [] => []
  | [s] => s
  | s :: rest => s ++ str ", " ++ joinComma rest

/-- The retry loop of `update_packages` (src/packages.rs lines 311-388):
finish when `todo` is empty; run a pass; if a pass defers everything, fail
with the "unsatisfiable" message listing the sorted remaining names
(`Display` form); otherwise continue with the deferred names.  Fuel bounds
the number of passes (each pass strictly shrinks `todo` or exits). -/
def updateLoop (w : World) (specs : PackageSpecs) (conds : UpdatePackagesConditions)
    (packages : List FullPackageName) (now : Nat) :
    Nat → List FullPackageName → List FullPackageName → CacheState →
    Except (List Char) Unit × CacheState × List FullPackageName
  | _, [], done, st => (.ok (), st, done)
  | 0, _ :: _, done, st => (.error (str "internal: update loop fuel exhausted"), st, done)
  | fuel+1, todo, done, st =>
    match processPass w specs conds packages now todo done [] st with
    | (.error e, done1, _, st1) => (.error e, st1, done1)
    | (.ok _, done1, later, st1) =>
      if later.length = todo.length then
        (.error (str "package dependencies are unsatisfiable for: " ++
          joinComma ((sortNames later).map displayFullPackageName)), st1, done1)
      else updateLoop w specs conds packages now fuel later done1 st1

/-- `Cubicle::update_packages` (src/packages.rs lines 298-389): compute the
transitive build closure, drop Debian names, and run the loop.  The third
component of the result is the final `done` list (ghost decision trace,
newest first). -/
def updatePackages (w : World) (specs : PackageSpecs)
    (packages : List FullPackageName) (conds : UpdatePackagesConditions)
    (st : CacheState) (now : Nat) :
    Except (List Char) Unit × CacheState × List FullPackageName :=
  match transitiveDepends specs true packages with
  | .error e => (.error e, st, [])
  | .ok closure =>
    let todo := sortNames (closure.filter (fun p => !decide (p.ns = .Debian)))
    updateLoop w specs conds packages now (todo.length + 1) todo [] st

/-- The auto-edge insertion of `add_packages` (src/packages.rs lines
201-205): insert `"auto"` into the Root table of `depends`.  `BTreeMap`
insertion replaces an existing entry, so on the key set this is union with
`{"auto"}`; the code unwraps the Root table, assuming the manifest parser
materialised it. -/
def addAutoToManifest (m : Manifest) : Manifest :=
  { m with depends := m.depends.map (fun e =>
      if e.1 = .Root then
        (e.1, if e.2.contains (str "auto") then e.2 else str "auto" :: e.2)
      else e) }

/-- The auto-edge removal of `scan_packages` (src/packages.rs lines
286-291): remove the key `"auto"` from the Root table of `depends`. -/
def removeAutoFromManifest (m : Manifest) : Manifest :=
  { m with depends := m.depends.map (fun e =>
      if e.1 = .Root then (e.1, e.2.filter (fun n => !decide (n = str "auto")))
      else e) }

/-- Apply a function to the spec stored under one key. -/
def mapSpecAt (specs : PackageSpecs) (n : List Char) (f : PackageSpec → PackageSpec) :
    PackageSpecs :=
  specs.map (fun e => if e.1 = n then (e.1, f e.2) else e)

/-- A spec with the synthetic auto edge appended (what `add_packages`
stores). -/
def augSpec (s : PackageSpec) : PackageSpec :=
  { s with manifest := addAutoToManifest s.manifest }

/-- A spec with the auto edge stripped (what the removal loop of
`scan_packages` stores). -/
def stripSpec (s : PackageSpec) : PackageSpec :=
  { s with manifest := removeAutoFromManifest s.manifest }

/-- Whether the auto-closure entry `q` causes the removal loop to strip
the auto edge from the spec keyed `n`: a Root entry strips its own spec, a
Managed entry strips the manager's. -/
def targetsB (q : FullPackageName) (n : List Char) : Bool :=
  (decide (q.ns = .Root) && decide (q.name = n)) || decide (q.ns = .Managed n)

/-- One step of the auto-edge removal loop of `scan_packages`
(src/packages.rs lines 274-291): Debian entries are skipped; a Root entry
strips the auto edge from the spec of that name; a Managed entry strips it
from the spec of the MANAGER.  Missing specs error as in the code
(branches that are dead when the closure itself succeeded). -/
def removeAutoAt (specs : PackageSpecs) (p : FullPackageName) :
    Except (List Char) PackageSpecs :=
  match p.ns with
  | .Debian => .ok specs
  | .Root =>
    if (findSpec specs p.name).isSome then
      .ok (mapSpecAt specs p.name stripSpec)
    else
      .error (str "package \"auto\" depends on " ++ rustDebugStr p.name ++
        str " but package not found")
  | .Managed mgr =>
    if (findSpec specs mgr).isSome then
      .ok (mapSpecAt specs mgr stripSpec)
    else
      .error (str "package \"auto\" depends on package manager " ++
        rustDebugStr p.ns.asStr ++ str " but package not found")

/-- `Cubicle::scan_packages` (src/packages.rs lines 258-294), modelled from
the point where `add_packages` has read all manifests (directory iteration
and TOML parsing are external I/O): append the synthetic auto edge to every
spec, compute the transitive build closure of `"auto"`, then remove the
edge from every spec the closure names. -/
def scanPackagesFrom (raw : PackageSpecs) : Except (List Char) PackageSpecs :=
  let specs : PackageSpecs := raw.map (fun e => (e.1, augSpec e.2))
  match transitiveDepends specs true [⟨.Root, str "auto"⟩] with
  | .error e => .error e
  | .ok autoDeps => autoDeps.foldlM removeAutoAt specs

/-- Whether a spec declares a runtime dependency on the Root package
`"auto"`: membership in the Root table of `depends`. -/
def hasAutoDep (spec : PackageSpec) : Bool :=
  spec.manifest.depends.any (fun e =>
    decide (e.1 = .Root) && e.2.contains (str "auto"))

/-- Whether a manifest has a Root entry in `depends` (the precondition of
the code's `get_mut(&Root).unwrap()`). -/
def hasRootKey (m : Manifest) : Bool :=
  m.depends.any (fun e => decide (e.1 = .Root))

/-- The per-environment storage of the Bubblewrap runner: the trees under
`<cache>/cubicle/home/<env>` and `<data>/cubicle/work/<env>`, each either
absent or a tree (abstracted to a content token; `emptyDirTree` is a
freshly created empty directory). -/
structure BwFilesystem where
  homeDirs : List Char → Option Nat
  workDirs : List Char → Option Nat

/-- The tree contents of a freshly created empty directory. -/
def emptyDirTree : Nat := 0

/-- `Bubblewrap::reset` (src/bubblewrap.rs lines 173-180): `rmtree` the
home tree, then `create_dir_all` both directories (`create_dir_all` leaves
an existing directory and its contents untouched; `rmtree` removes the
tree if present). -/
def bubblewrapReset (fs : BwFilesystem) (name : List Char) : BwFilesystem :=
  { homeDirs := fun n => if n = name then some emptyDirTree else fs.homeDirs n,
    workDirs := fun n =>
      if n = name then some ((fs.workDirs n).getD emptyDirTree) else fs.workDirs n }

/-- `Bubblewrap::purge` (src/bubblewrap.rs lines 182-185): `rmtree` both
trees. -/
def bubblewrapPurge (fs : BwFilesystem) (name : List Char) : BwFilesystem :=
  { homeDirs := fun n => if n = name then none else fs.homeDirs n,
    workDirs := fun n => if n = name then none else fs.workDirs n }

/-- The non-Debian immediate dependency edges of a spec, in the order
`deps_ready` inspects them. -/
def nonDebianDeps (spec : PackageSpec) : List FullPackageName :=
  (manifestDeps spec.manifest true).filter (fun q => !decide (q.ns = .Debian))

/-- The ordering property of a decision trace (newest decision first): each
decided package resolved to a spec and all of that spec's non-Debian
immediate dependencies were decided strictly earlier. -/
def goodOrderB (specs : PackageSpecs) : List FullPackageName → Bool
  | [] => true
  | b :: rest =>
    (match lookupSpecFor specs b with
     | .ok spec => (nonDebianDeps spec).all (fun a => rest.contains a)
     | .error _ => false) && goodOrderB specs rest

instance {α β : Type} [DecidableEq α] [DecidableEq β] : DecidableEq (Except α β) :=
  fun x y =>
    match x, y with
    | .ok a, .ok b =>
      if h : a = b then .isTrue (h ▸ rfl)
      else .isFalse (fun hx => h (Except.ok.inj hx))
    | .error a, .error b =>
      if h : a = b then .isTrue (h ▸ rfl)
      else .isFalse (fun hx => h (Except.error.inj hx))
    | .ok _, .error _ => .isFalse (fun hx => Except.noConfusion hx)
    | .error _, .ok _ => .isFalse (fun hx => Except.noConfusion hx)

/-- The per-package proof obligation used to carry an invariant `Φ` (over
the decided list and the cache state) through the update loop: deciding a
ready package preserves the invariant, whether the package is rebuilt with
a successful outcome or skipped. -/
def StepOk (w : World) (specs : PackageSpecs) (conds : UpdatePackagesConditions)
    (packages : List FullPackageName) (now : Nat)
    (Φ : List FullPackageName → CacheState → Prop) (q : FullPackageName) : Prop :=
  ∀ spec done0 st0, lookupSpecFor specs q = .ok spec →
    depsReady spec done0 = true → Φ done0 st0 →
    (needsBuildFor w st0 conds packages now q spec = false → Φ (q :: done0) st0) ∧
    (∀ st2, needsBuildFor w st0 conds packages now q spec = true →
      updatePackage w st0 q spec = (.ok (), st2) → Φ (q :: done0) st2)

/-- Whether `needle` occurs at the start of `hay`. -/
def beginsWith : List Char → List Char → Bool
  | [], _ => true
  | _ :: _, [] => false
  | a :: as, b :: bs => if a = b then beginsWith as bs else false

/-- Whether `needle` occurs contiguously anywhere in `hay`. -/
def hasSub (needle : List Char) : List Char → Bool
  | [] => needle.isEmpty
  | c :: rest => beginsWith needle (c :: rest) || hasSub needle rest

/-- A small helper to build a Root-only package spec for concrete
instances. -/
def mkRootSpec (deps : List (List Char)) (hasUpdate : Bool) (dirM : Nat) :
    PackageSpec :=
  ⟨⟨false, [(.Root, deps)], []⟩, dirM,
    if hasUpdate then some (str "./update.sh") else none, none⟩

/-- Concrete registry for the staleness claim: `a` depends on `b`, `b`
depends on `c`, `c` depends on nothing; every package has an update
script and an old source directory. -/
def c3Specs : PackageSpecs :=
  [(str "a", mkRootSpec [str "b"] true 0),
   (str "b", mkRootSpec [str "c"] true 0),
   (str "c", mkRootSpec [] true 0)]

/-- Concrete cache for the staleness claim: `a` built at 10, its immediate
dependency `b` at 5, but the transitive dependency `c` at 20. -/
def c3State : CacheState :=
  ⟨fun k =>
    if k = str "a.tar" then some ⟨10, 1⟩
    else if k = str "b.tar" then some ⟨5, 2⟩
    else if k = str "c.tar" then some ⟨20, 3⟩
    else none, []⟩

/-- Oracles for the staleness claim: no `auto_update` window configured. -/
def c3World : World := ⟨none, fun _ => none, fun _ => true, fun _ => 0⟩

/-- Concrete registry for the unsatisfiable-message claim: `X` declares a
runtime dependency on the Root package `missing`, which has no spec. -/
def c6Specs : PackageSpecs :=
  [(str "X", ⟨⟨false, [(.Root, [str "missing"])], []⟩, 0,
    some (str "./update.sh"), none⟩)]

/-- An empty cache for the unsatisfiable-message claim. -/
def c6State : CacheState := ⟨fun _ => none, []⟩

/-- Oracles for the unsatisfiable-message claim (never consulted: the
closure computation fails first). -/
def c6World : World := ⟨none, fun _ => some 1, fun _ => true, fun _ => 0⟩

/-- Concrete registry for the auto-edge claim: `auto` has a managed
dependency `npm.x`; `npm` is a package manager.  Both manifests carry a
Root `depends` table. -/
def c8Raw : PackageSpecs :=
  [(str "auto",
    ⟨⟨false, [(.Root, []), (.Managed (str "npm"), [str "x"])], []⟩, 0, none, none⟩),
   (str "npm", ⟨⟨true, [(.Root, [])], []⟩, 0, none, none⟩)]

/-- Concrete registry for the cache-artifact claim: one Root package `p`
with an update script, no dependencies, and an old source directory. -/
def c4Specs : PackageSpecs := [(str "p", mkRootSpec [] true 0)]

/-- Variant registry whose only package has NO update script (so the update
loop decides it without ever producing an artifact). -/
def c4SpecsNoScript : PackageSpecs := [(str "p", mkRootSpec [] false 10)]

/-- Variant registry whose package has an update script and a source
directory newer than the cached artifact (so it is stale). -/
def c4StaleSpecs : PackageSpecs := [(str "p", mkRootSpec [] true 10)]

/-- An empty package cache. -/
def c4State : CacheState := ⟨fun _ => none, []⟩

/-- Oracles for the success path of the cache-artifact claim: building
succeeds, tests pass. -/
def c4World : World := ⟨none, fun _ => some 1, fun _ => true, fun _ => 7⟩

/-- A cache holding a previously built artifact for `p` (mtime 1). -/
def c4StaleState : CacheState :=
  ⟨fun k => if k = str "p.tar" then some ⟨1, 9⟩ else none, []⟩

/-- Oracles where every build fails. -/
def c4FailWorld : World := ⟨none, fun _ => none, fun _ => true, fun _ => 0⟩

/-- Concrete registry for the stale-fallback claim: one Root package `P`
with an update script whose only dependency is a Debian package. -/
def c5Specs : PackageSpecs :=
  [(str "P", ⟨⟨false, [(.Debian, [str "libfoo"])], []⟩, 0,
    some (str "./update.sh"), none⟩)]

/-- A cache holding a previously built artifact for `P` (mtime 10,
content 7). -/
def c5State : CacheState :=
  ⟨fun k => if k = str "P.tar" then some ⟨10, 7⟩ else none, []⟩

/-- Oracles for the stale-fallback claim: every build fails. -/
def c5World : World := ⟨none, fun _ => none, fun _ => true, fun _ => 0⟩

/-! ### Basic string lemmas -/

theorem dropWhile_eq_self_of_none (p : Char → Bool) (s : List Char)
    (h : ∀ c ∈ s, p c = false) : s.dropWhile p = s := by
  cases s with
  | nil => rfl
  | cons c t => simp [List.dropWhile_cons, h c (by simp)]

theorem trim_eq_self_of_no_ws (s : List Char) (h : ∀ c ∈ s, isWhiteC c = false) :
    trim s = s := by
  unfold trim
  rw [dropWhile_eq_self_of_none _ _ h,
    dropWhile_eq_self_of_none _ _ (fun c hc => h c (List.mem_reverse.mp hc)),
    List.reverse_reverse]

theorem trim_eq_nil_of_all_ws (s : List Char) (h : ∀ c ∈ s, isWhiteC c = true) :
    trim s = [] := by
  have h1 : s.dropWhile isWhiteC = [] := by
    induction s with
    | nil => rfl
    | cons c t ih =>
      simp only [List.dropWhile_cons, h c (by simp), if_true]
      exact ih (fun x hx => h x (by simp [hx]))
  simp [trim, h1]

theorem splitOnce_not_mem {c : Char} {l : List Char} (h : c ∉ l) :
    splitOnce c l = none := by
  induction l with
  | nil => rfl
  | cons a t ih =>
    have hac : ¬(a = c) := fun he => h (he ▸ List.mem_cons_self a t)
    simp only [splitOnce, if_neg hac, ih (fun hm => h (List.mem_cons_of_mem a hm))]
    rfl

theorem splitOnce_append (a b : List Char) (c : Char) (h : c ∉ a) :
    splitOnce c (a ++ c :: b) = some (a, b) := by
  induction a with
  | nil => simp [splitOnce]
  | cons x t ih =>
    have hxc : ¬(x = c) := fun he => h (he ▸ List.mem_cons_self x t)
    have ih2 := ih (fun hm => h (List.mem_cons_of_mem x hm))
    show (if x = c then some ([], t ++ c :: b)
      else (splitOnce c (t ++ c :: b)).map (fun q => (x :: q.1, q.2))) =
        some (x :: t, b)
    rw [if_neg hxc, ih2]
    rfl

theorem no_ws_of_pkgBad_false {c : Char} (h : pkgBadChar c = false) :
    isWhiteC c = false := by
  by_contra hw
  simp only [Bool.not_eq_false] at hw
  simp [pkgBadChar, hw] at h

theorem no_ws_of_nsBad_false {c : Char} (h : nsBadChar c = false) :
    isWhiteC c = false := by
  by_contra hw
  simp only [Bool.not_eq_false] at hw
  simp [nsBadChar, hw] at h

theorem nsBad_of_pkgBad {c : Char} (h : pkgBadChar c = true) : nsBadChar c = true := by
  unfold pkgBadChar at h
  unfold nsBadChar
  cases hws : isWhiteC c <;> cases hct : isCtrlC c <;> cases ha : isAsciiC c <;>
    cases hal : isAsciiAlnumC c <;> cases h1 : decide (c = '-') <;>
    cases h2 : decide (c = '_') <;> cases h3 : decide (c = '.') <;> simp_all

theorem validPackageName_parts {p : List Char} (h : validPackageName p = true) :
    p ≠ [] ∧ ∀ c ∈ p, pkgBadChar c = false := by
  simp only [validPackageName, Bool.and_eq_true, Bool.not_eq_true',
    List.isEmpty_eq_false] at h
  refine ⟨h.1, fun c hc => ?_⟩
  by_contra hb
  simp only [Bool.not_eq_false] at hb
  have := List.any_eq_true.mpr ⟨c, hc, hb⟩
  simp [this] at h

theorem validNamespaceStr_parts {m : List Char} (h : validNamespaceStr m = true) :
    m ≠ [] ∧ (∀ c ∈ m, nsBadChar c = false) ∧
      m ≠ str "cubicle" ∧ m ≠ str "debian" := by
  simp only [validNamespaceStr, Bool.and_eq_true, Bool.not_eq_true',
    List.isEmpty_eq_false, decide_eq_false_iff_not] at h
  refine ⟨h.1.1.1, fun c hc => ?_, h.1.2, h.2⟩
  by_contra hb
  simp only [Bool.not_eq_false] at hb
  have := List.any_eq_true.mpr ⟨c, hc, hb⟩
  simp [this] at h

theorem packageNameFromStr_valid {p : List Char} (h : validPackageName p = true) :
    packageNameFromStr p = .ok p := by
  obtain ⟨hne, hchars⟩ := validPackageName_parts h
  have ht : trim p = p :=
    trim_eq_self_of_no_ws p (fun c hc => no_ws_of_pkgBad_false (hchars c hc))
  have hany : p.any pkgBadChar = false := by
    by_contra hb
    simp only [Bool.not_eq_false, List.any_eq_true] at hb
    obtain ⟨c, hc, hbc⟩ := hb
    simp [hchars c hc] at hbc
  simp [packageNameFromStr, ht, List.isEmpty_eq_false.mpr hne, hany]

theorem packageNamespaceFromStr_managed {m : List Char}
    (h : validNamespaceStr m = true) :
    packageNamespaceFromStr m = .ok (.Managed m) := by
  obtain ⟨hne, hchars, hcub, hdeb⟩ := validNamespaceStr_parts h
  have ht : trim m = m :=
    trim_eq_self_of_no_ws m (fun c hc => no_ws_of_nsBad_false (hchars c hc))
  have hany : m.any nsBadChar = false := by
    by_contra hb
    simp only [Bool.not_eq_false, List.any_eq_true] at hb
    obtain ⟨c, hc, hbc⟩ := hb
    simp [hchars c hc] at hbc
  have hpkg : packageNameFromStr m = .ok m := by
    apply packageNameFromStr_valid
    simp only [validPackageName, Bool.and_eq_true, Bool.not_eq_true',
      List.isEmpty_eq_false]
    refine ⟨hne, ?_⟩
    by_contra hb
    simp only [Bool.not_eq_false, List.any_eq_true] at hb
    obtain ⟨c, hc, hbc⟩ := hb
    have := nsBad_of_pkgBad hbc
    simp [hchars c hc] at this
  simp [packageNamespaceFromStr, ht, List.isEmpty_eq_false.mpr hne, hany,
    hcub, hdeb, hpkg, Except.map]

theorem packageNamespaceFromStr_debian :
    packageNamespaceFromStr (str "debian") = .ok .Debian := by decide

/-! ### Claim C10 -/

/-- C10: `EnvironmentName::from_str` and `PackageName::from_str` trim
leading and trailing whitespace before validating; an accepted input parses
to its trimmed form; acceptance is decided purely by the trimmed string
being non-empty with every character allowed (interior whitespace, control
characters, and special characters being exactly the disallowed ones); and
an all-whitespace input is rejected as empty. -/
theorem claim_C10_theorem (s : List Char) :
    ((∀ c ∈ s, isWhiteC c = true) →
      packageNameFromStr s = .error (str "package name cannot be empty") ∧
      environmentNameFromStr s = .error (str "environment name cannot be empty")) ∧
    (∀ t, packageNameFromStr s = .ok t → t = trim s) ∧
    (∀ t, environmentNameFromStr s = .ok t → t = trim s) ∧
    ((∃ t, packageNameFromStr s = .ok t) ↔
      (trim s ≠ [] ∧ ∀ c ∈ trim s, pkgBadChar c = false)) ∧
    ((∃ t, environmentNameFromStr s = .ok t) ↔
      (trim s ≠ [] ∧ ∀ c ∈ trim s, envBadChar c = false)) := by
  refine ⟨fun hws => ?_, fun t ht => ?_, fun t ht => ?_, ?_, ?_⟩
  · have h0 : trim s = [] := trim_eq_nil_of_all_ws s hws
    constructor <;> simp [packageNameFromStr, environmentNameFromStr, h0]
  · unfold packageNameFromStr at ht
    by_cases h0 : (trim s).isEmpty
    · rw [if_pos h0] at ht; exact Except.noConfusion ht
    · rw [if_neg h0] at ht
      by_cases h1 : (trim s).any pkgBadChar
      · rw [if_pos h1] at ht; exact Except.noConfusion ht
      · rw [if_neg h1] at ht
        exact (Except.ok.inj ht).symm
  · unfold environmentNameFromStr at ht
    by_cases h0 : (trim s).isEmpty
    · rw [if_pos h0] at ht; exact Except.noConfusion ht
    · rw [if_neg h0] at ht
      by_cases h1 : (trim s).any envBadChar
      · rw [if_pos h1] at ht; exact Except.noConfusion ht
      · rw [if_neg h1] at ht
        by_cases h2 : (trim s).contains '/'
        · rw [if_pos h2] at ht; exact Except.noConfusion ht
        · rw [if_neg h2] at ht
          by_cases h3 : trim s = str "."
          · rw [if_pos (by simp [h3])] at ht; exact Except.noConfusion ht
          · by_cases h4 : trim s = str ".."
            · rw [if_pos (by simp [h4])] at ht; exact Except.noConfusion ht
            · rw [if_neg (by simp [h3, h4])] at ht
              exact (Except.ok.inj ht).symm
  · constructor
    · rintro ⟨t, ht⟩
      by_cases h0 : (trim s).isEmpty
      · simp [packageNameFromStr, h0] at ht
      · by_cases h1 : (trim s).any pkgBadChar
        · simp [packageNameFromStr, h0, h1] at ht
        · refine ⟨List.isEmpty_eq_false.mp (Bool.not_eq_true _ ▸ h0), fun c hc => ?_⟩
          by_contra hb
          simp only [Bool.not_eq_false] at hb
          exact h1 (List.any_eq_true.mpr ⟨c, hc, hb⟩)
    · rintro ⟨hne, hch⟩
      have h0 : (trim s).isEmpty = false := List.isEmpty_eq_false.mpr hne
      have h1 : (trim s).any pkgBadChar = false := by
        by_contra hb
        simp only [Bool.not_eq_false, List.any_eq_true] at hb
        obtain ⟨c, hc, hbc⟩ := hb
        simp [hch c hc] at hbc
      exact ⟨trim s, by simp [packageNameFromStr, h0, h1]⟩
  · constructor
    · rintro ⟨t, ht⟩
      by_cases h0 : (trim s).isEmpty
      · simp [environmentNameFromStr, h0] at ht
      · by_cases h1 : (trim s).any envBadChar
        · simp [environmentNameFromStr, h0, h1] at ht
        · refine ⟨List.isEmpty_eq_false.mp (Bool.not_eq_true _ ▸ h0), fun c hc => ?_⟩
          by_contra hb
          simp only [Bool.not_eq_false] at hb
          exact h1 (List.any_eq_true.mpr ⟨c, hc, hb⟩)
    · rintro ⟨hne, hch⟩
      have h0 : (trim s).isEmpty = false := List.isEmpty_eq_false.mpr hne
      have h1 : (trim s).any envBadChar = false := by
        by_contra hb
        simp only [Bool.not_eq_false, List.any_eq_true] at hb
        obtain ⟨c, hc, hbc⟩ := hb
        simp [hch c hc] at hbc
      have h2 : '/' ∉ trim s := by
        intro hm
        exact absurd (hch _ hm) (by decide)
      have h2b : (trim s).contains '/' = false := by
        by_contra hb
        simp only [Bool.not_eq_false] at hb
        exact h2 (List.elem_iff.mp hb)
      have h3 : trim s ≠ str "." := by
        intro he
        have hm : '.' ∈ trim s := by rw [he]; exact List.mem_singleton.mpr rfl
        exact absurd (hch _ hm) (by decide)
      have h4 : trim s ≠ str ".." := by
        intro he
        have hm : '.' ∈ trim s := by rw [he]; exact List.mem_cons_self _ _
        exact absurd (hch _ hm) (by decide)
      refine ⟨trim s, ?_⟩
      unfold environmentNameFromStr
      rw [if_neg (by simp [h0]), if_neg (by simp [h1]),
        if_neg (by simpa using h2), if_neg (by simp [h3, h4])]

/-- C10 witness: the whitespace-surrounded input `" foo "` is accepted by
both parsers and parses to the trimmed `"foo"`; the all-whitespace string
is rejected as empty. -/
theorem claim_C10_witness :
    packageNameFromStr (str " foo ") = .ok (str "foo") ∧
    environmentNameFromStr (str " foo ") = .ok (str "foo") ∧
    packageNameFromStr (str "  ") = .error (str "package name cannot be empty") := by
  have h1 := (claim_C10_theorem (str " foo ")).2.2.2.1.mpr (by decide)
  have h2 := (claim_C10_theorem (str " foo ")).2.2.2.2.mpr (by decide)
  obtain ⟨t1, ht1⟩ := h1
  obtain ⟨t2, ht2⟩ := h2
  have e1 := (claim_C10_theorem (str " foo ")).2.1 t1 ht1
  have e2 := (claim_C10_theorem (str " foo ")).2.2.1 t2 ht2
  have e3 := ((claim_C10_theorem (str "  ")).1 (by decide)).1
  refine ⟨?_, ?_, e3⟩
  · rw [ht1, e1]; decide
  · rw [ht2, e2]; decide

/-! ### Claim C1 -/

/-- C1 counterexample: the Root package whose `PackageName` is `a.b` (a
valid package name, since `PackageName` permits `.`) does not round-trip:
its display form `a.b` re-parses as the Managed-namespace package `a` /
name `b`, because `FullPackageName::from_str` treats the first `.` as a
namespace separator. -/
theorem claim_C1_counterexample :
    validPackageName (str "a.b") = true ∧
    fullPackageNameFromStr
        (FullPackageName.unquoted ⟨.Root, str "a.b"⟩) =
      .ok ⟨.Managed (str "a"), str "b"⟩ ∧
    (⟨.Managed (str "a"), str "b"⟩ : FullPackageName) ≠
      ⟨.Root, str "a.b"⟩ := by
  refine ⟨by decide, by decide, by decide⟩

/-- C1 amended: parsing the display form is the identity on every
`FullPackageName` the parser itself can produce — valid package name, Root
names free of `.`, Managed namespaces valid and distinct from
`cubicle`/`debian`.  (It fails for Root names containing `.`.) -/
theorem claim_C1_theorem (x : FullPackageName) (h : canonicalFull x = true) :
    fullPackageNameFromStr (FullPackageName.unquoted x) = .ok x := by
  obtain ⟨ns, name⟩ := x
  simp only [canonicalFull, Bool.and_eq_true] at h
  obtain ⟨hname, hns⟩ := h
  obtain ⟨hne, hchars⟩ := validPackageName_parts hname
  have hnws : ∀ c ∈ name, isWhiteC c = false :=
    fun c hc => no_ws_of_pkgBad_false (hchars c hc)
  cases ns with
  | Root =>
    have hdot : '.' ∉ name := by
      simp only [Bool.not_eq_true'] at hns
      intro hm
      have h1 : List.elem '.' name = true := List.elem_iff.mpr hm
      have h2 : name.contains '.' = true := h1
      rw [h2] at hns
      exact absurd hns (by decide)
    have hu : FullPackageName.unquoted ⟨.Root, name⟩ = name := by
      simp [FullPackageName.unquoted]
    rw [hu]
    have ht : trim name = name := trim_eq_self_of_no_ws _ hnws
    simp only [fullPackageNameFromStr, ht, splitOnce_not_mem hdot,
      packageNameFromStr_valid hname]
    rfl
  | Debian =>
    have hu : FullPackageName.unquoted ⟨.Debian, name⟩ =
        str "debian" ++ '.' :: name := by
      simp [FullPackageName.unquoted, PackageNamespace.asStr]
    rw [hu]
    have hnws2 : ∀ c ∈ str "debian" ++ '.' :: name, isWhiteC c = false := by
      intro c hc
      rcases List.mem_append.mp hc with hc | hc
      · have hc2 : c ∈ ['d', 'e', 'b', 'i', 'a', 'n'] := hc
        simp only [List.mem_cons, List.not_mem_nil, or_false] at hc2
        rcases hc2 with rfl | rfl | rfl | rfl | rfl | rfl <;> decide
      · rcases List.mem_cons.mp hc with hc | hc
        · rw [hc]; decide
        · exact hnws c hc
    have ht := trim_eq_self_of_no_ws _ hnws2
    simp only [fullPackageNameFromStr, ht,
      splitOnce_append (str "debian") name '.' (by decide),
      packageNamespaceFromStr_debian, packageNameFromStr_valid hname]
    rfl
  | Managed m =>
    have hvm : validNamespaceStr m = true := hns
    obtain ⟨hmne, hmchars, _, _⟩ := validNamespaceStr_parts hvm
    have hu : FullPackageName.unquoted ⟨.Managed m, name⟩ = m ++ '.' :: name := by
      simp [FullPackageName.unquoted, PackageNamespace.asStr]
    rw [hu]
    have hmws : ∀ c ∈ m, isWhiteC c = false :=
      fun c hc => no_ws_of_nsBad_false (hmchars c hc)
    have hnws2 : ∀ c ∈ m ++ '.' :: name, isWhiteC c = false := by
      intro c hc
      rcases List.mem_append.mp hc with hc | hc
      · exact hmws c hc
      · rcases List.mem_cons.mp hc with hc | hc
        · rw [hc]; decide
        · exact hnws c hc
    have ht := trim_eq_self_of_no_ws _ hnws2
    have hmdot : '.' ∉ m := by
      intro hm
      exact absurd (hmchars '.' hm) (by decide)
    simp only [fullPackageNameFromStr, ht, splitOnce_append m name '.' hmdot,
      packageNamespaceFromStr_managed hvm, packageNameFromStr_valid hname]
    rfl

/-- C1 witness: the Debian package `curl` (display form `debian.curl`)
satisfies the canonicality hypothesis and round-trips. -/
theorem claim_C1_witness :
    canonicalFull ⟨.Debian, str "curl"⟩ = true ∧
    fullPackageNameFromStr (FullPackageName.unquoted ⟨.Debian, str "curl"⟩) =
      .ok ⟨.Debian, str "curl"⟩ :=
  ⟨by decide, claim_C1_theorem ⟨.Debian, str "curl"⟩ (by decide)⟩

/-! ### Claim C2 -/

theorem envFromStr_special_error (f : List Char)
    (hnws : ∀ c ∈ f, isWhiteC c = false)
    (c0 : Char) (hc0 : c0 ∈ f) (hbad : envBadChar c0 = true) :
    environmentNameFromStr f =
      .error (str "environment name cannot contain special characters") := by
  have ht : trim f = f := trim_eq_self_of_no_ws f hnws
  have hany : f.any envBadChar = true := List.any_eq_true.mpr ⟨c0, hc0, hbad⟩
  unfold environmentNameFromStr
  rw [ht]
  rw [if_neg (by simp [List.isEmpty_eq_false.mpr (List.ne_nil_of_mem hc0)]),
    if_pos hany]

/-- C2 is refuted by the code: for every valid package name `p`,
`EnvironmentName::for_builder_package` formats `package-{p}` using the
`Display` impl of `PackageName`, which delegates to `Debug` and so
quote-wraps the name; the formatted string therefore contains `"`, which
`EnvironmentName::from_str` rejects as a special character, and the
`.unwrap()` in `for_builder_package` panics.  This theorem evaluates the
code at every such input: the parse the code unwraps is always an error. -/
theorem claim_C2_theorem (p : List Char) (h : validPackageName p = true) :
    forBuilderPackage p =
      .error (str "environment name cannot contain special characters") := by
  obtain ⟨hne, hchars⟩ := validPackageName_parts h
  unfold forBuilderPackage displayPackageName rustDebugStr
  apply envFromStr_special_error
  · intro c hc
    rcases List.mem_append.mp hc with hc | hc
    · have hc2 : c ∈ ['p', 'a', 'c', 'k', 'a', 'g', 'e', '-'] := hc
      simp only [List.mem_cons, List.not_mem_nil, or_false] at hc2
      rcases hc2 with rfl | rfl | rfl | rfl | rfl | rfl | rfl | rfl <;> decide
    · rcases List.mem_cons.mp hc with rfl | hc
      · decide
      · rcases List.mem_append.mp hc with hc | hc
        · obtain ⟨a, ha, hca⟩ := List.mem_flatMap.mp hc
          have haws : isWhiteC a = false := no_ws_of_pkgBad_false (hchars a ha)
          unfold escDbgChar at hca
          split_ifs at hca
          · rcases List.mem_cons.mp hca with rfl | hca
            · decide
            · rcases List.mem_cons.mp hca with rfl | hca
              · exact haws
              · exact absurd hca (List.not_mem_nil _)
          · rcases List.mem_cons.mp hca with rfl | hca
            · exact haws
            · exact absurd hca (List.not_mem_nil _)
        · rcases List.mem_cons.mp hc with rfl | hc
          · decide
          · exact absurd hc (List.not_mem_nil _)
  · exact List.mem_append.mpr (Or.inr (List.mem_cons_self _ _))
  · decide

/-- C2 witness: at the concrete valid package name `foo` the environment
name the code tries to build is `package-"foo"` and the unwrapped parse is
an error (a panic in the Rust code). -/
theorem claim_C2_witness :
    validPackageName (str "foo") = true ∧
    str "package-" ++ displayPackageName (str "foo") = str "package-\"foo\"" ∧
    forBuilderPackage (str "foo") =
      .error (str "environment name cannot contain special characters") :=
  ⟨by decide, by decide, claim_C2_theorem (str "foo") (by decide)⟩

/-! ### Claim C9 -/

/-- C9: `Bubblewrap::reset` removes only the per-environment home tree and
recreates both directories — the home tree becomes a fresh empty
directory, an existing work tree is left with its contents unchanged (a
missing one is created empty), and no other environment's storage is
touched; `Bubblewrap::purge` removes both trees of the named environment
and nothing else. -/
theorem claim_C9_theorem (fs : BwFilesystem) (name other : List Char)
    (h : other ≠ name) :
    (bubblewrapReset fs name).homeDirs name = some emptyDirTree ∧
    (bubblewrapReset fs name).workDirs name =
      some ((fs.workDirs name).getD emptyDirTree) ∧
    (∀ t, fs.workDirs name = some t →
      (bubblewrapReset fs name).workDirs name = some t) ∧
    (bubblewrapReset fs name).homeDirs other = fs.homeDirs other ∧
    (bubblewrapReset fs name).workDirs other = fs.workDirs other ∧
    (bubblewrapPurge fs name).homeDirs name = none ∧
    (bubblewrapPurge fs name).workDirs name = none ∧
    (bubblewrapPurge fs name).homeDirs other = fs.homeDirs other ∧
    (bubblewrapPurge fs name).workDirs other = fs.workDirs other := by
  refine ⟨?_, ?_, fun t ht => ?_, ?_, ?_, ?_, ?_, ?_, ?_⟩ <;>
    simp [bubblewrapReset, bubblewrapPurge, h]
  simp [ht]

/-- C9 witness: a concrete filesystem with an existing work tree for
environment `e`: reset clears home, keeps the work tree intact; purge
removes both; the unrelated environment `f` is untouched throughout. -/
theorem claim_C9_witness :
    (str "f" ≠ str "e") ∧
    ((bubblewrapReset ⟨fun _ => some 7, fun _ => some 5⟩ (str "e")).homeDirs
        (str "e") = some emptyDirTree ∧
      (bubblewrapReset ⟨fun _ => some 7, fun _ => some 5⟩ (str "e")).workDirs
        (str "e") = some ((some 5).getD emptyDirTree) ∧
      (∀ t, (some 5 : Option Nat) = some t →
        (bubblewrapReset ⟨fun _ => some 7, fun _ => some 5⟩ (str "e")).workDirs
          (str "e") = some t) ∧
      (bubblewrapReset ⟨fun _ => some 7, fun _ => some 5⟩ (str "e")).homeDirs
        (str "f") = some 7 ∧
      (bubblewrapReset ⟨fun _ => some 7, fun _ => some 5⟩ (str "e")).workDirs
        (str "f") = some 5 ∧
      (bubblewrapPurge ⟨fun _ => some 7, fun _ => some 5⟩ (str "e")).homeDirs
        (str "e") = none ∧
      (bubblewrapPurge ⟨fun _ => some 7, fun _ => some 5⟩ (str "e")).workDirs
        (str "e") = none ∧
      (bubblewrapPurge ⟨fun _ => some 7, fun _ => some 5⟩ (str "e")).homeDirs
        (str "f") = some 7 ∧
      (bubblewrapPurge ⟨fun _ => some 7, fun _ => some 5⟩ (str "e")).workDirs
        (str "f") = some 5) :=
  ⟨by decide, claim_C9_theorem ⟨fun _ => some 7, fun _ => some 5⟩ (str "e")
    (str "f") (by decide)⟩

/-! ### Claim C3 -/

/-- C3 counterexample: in the registry where `a` depends on `b` and `b`
depends on `c`, with artifacts `a.tar` at mtime 10, `b.tar` at 5 and
`c.tar` at 20, the package `a` has a cached artifact, no `auto_update`
window is configured, its source directory is older than the artifact, and
its TRANSITIVE dependency `c` has a newer artifact — yet
`package_is_stale(a)` returns `false`, because the code inspects only the
immediate `depends`/`build_depends` tables of `a` (which list just `b`). -/
theorem claim_C3_counterexample :
    packageIsStale c3World c3State ⟨.Root, str "a"⟩ (mkRootSpec [str "b"] true 0)
        30 = false ∧
    findSpec c3Specs (str "a") = some (mkRootSpec [str "b"] true 0) ∧
    transitiveDepends c3Specs true [⟨.Root, str "a"⟩] =
      .ok [⟨.Root, str "a"⟩, ⟨.Root, str "b"⟩, ⟨.Root, str "c"⟩] ∧
    lastBuilt c3State ⟨.Root, str "a"⟩ = some 10 ∧
    lastBuilt c3State ⟨.Root, str "c"⟩ = some 20 ∧
    c3World.autoUpdate = none ∧
    (mkRootSpec [str "b"] true 0).dirMtime = 0 := by
  refine ⟨by decide, by decide, by decide, by decide, by decide, rfl, rfl⟩

/-- C3 amended: `package_is_stale` returns `true` exactly when one of the
four conditions holds, with the dependency condition ranging over the
IMMEDIATE `build_depends`/`depends` table entries of the package's own
manifest (not the transitive closure): no cached artifact; the
`auto_update` window elapsed (or the artifact is from the future); the
source directory is newer than the artifact; or some immediate dependency
has a newer artifact. -/
theorem claim_C3_theorem (w : World) (st : CacheState) (p : FullPackageName)
    (spec : PackageSpec) (now : Nat) :
    packageIsStale w st p spec now = true ↔
      (lastBuilt st p = none ∨
        (∃ built, lastBuilt st p = some built ∧
          ((∃ th, w.autoUpdate = some th ∧ (built > now ∨ now - built > th)) ∨
           spec.dirMtime > built ∨
           (∃ e ∈ spec.manifest.buildDepends ++ spec.manifest.depends,
             ∃ n ∈ e.2, ∃ b, lastBuilt st ⟨e.1, n⟩ = some b ∧ b > built)))) := by
  cases hb : lastBuilt st p with
  | none => simp [packageIsStale, hb]
  | some built =>
    simp only [packageIsStale, hb]
    constructor
    · intro h
      right
      refine ⟨built, rfl, ?_⟩
      simp only [Bool.or_eq_true, List.any_eq_true, decide_eq_true_eq] at h
      rcases h with (h | h) | h
      · left
        cases hau : w.autoUpdate with
        | none => rw [hau] at h; exact absurd h (by simp)
        | some th =>
          rw [hau] at h
          simp only [Bool.or_eq_true, decide_eq_true_eq] at h
          exact ⟨th, rfl, h⟩
      · right; left; exact h
      · right; right
        obtain ⟨e, he, n, hn, hmatch⟩ := h
        cases hlb : lastBuilt st ⟨e.1, n⟩ with
        | none => rw [hlb] at hmatch; exact absurd hmatch (by simp)
        | some b =>
          rw [hlb] at hmatch
          simp only [decide_eq_true_eq] at hmatch
          exact ⟨e, he, n, hn, b, hlb, hmatch⟩
    · intro h
      rcases h with h | ⟨built2, hbuilt2, h⟩
      · exact absurd h (by simp)
      · have hbe : built2 = built := (Option.some.inj hbuilt2).symm
        subst hbe
        simp only [Bool.or_eq_true, List.any_eq_true, decide_eq_true_eq]
        rcases h with ⟨th, hth, hcond⟩ | h | ⟨e, he, n, hn, b, hlb, hgt⟩
        · left; left
          rw [hth]
          simp only [Bool.or_eq_true, decide_eq_true_eq]
          exact hcond
        · left; right; exact h
        · right
          refine ⟨e, he, n, hn, ?_⟩
          rw [hlb]
          simp only [decide_eq_true_eq]
          exact hgt

/-- C3 witness: at the concrete counterexample registry, the
characterization agrees: `a` is not stale, and indeed none of the four
(immediate-dependency) conditions holds there. -/
theorem claim_C3_witness :
    ¬(lastBuilt c3State ⟨.Root, str "a"⟩ = none ∨
      (∃ built, lastBuilt c3State ⟨.Root, str "a"⟩ = some built ∧
        ((∃ th, c3World.autoUpdate = some th ∧ (built > 30 ∨ 30 - built > th)) ∨
         (mkRootSpec [str "b"] true 0).dirMtime > built ∨
         (∃ e ∈ (mkRootSpec [str "b"] true 0).manifest.buildDepends ++
             (mkRootSpec [str "b"] true 0).manifest.depends,
           ∃ n ∈ e.2, ∃ b, lastBuilt c3State ⟨e.1, n⟩ = some b ∧ b > built)))) := by
  intro h
  have h2 := (claim_C3_theorem c3World c3State ⟨.Root, str "a"⟩
    (mkRootSpec [str "b"] true 0) 30).mpr h
  rw [show packageIsStale c3World c3State ⟨.Root, str "a"⟩
    (mkRootSpec [str "b"] true 0) 30 = false by decide] at h2
  exact absurd h2 (by decide)

/-! ### Claim C6 -/

theorem visit_succ (specs : PackageSpecs) (bd : Bool) (fuel : Nat)
    (visited : List FullPackageName) (p : FullPackageName)
    (neededBy : Option FullPackageName) :
    visit specs bd (fuel + 1) visited p neededBy =
      (if visited.contains p then .ok visited
       else
        let visited := visited ++ [p]
        match p.ns with
        | .Debian => .ok visited
        | .Root =>
          match findSpec specs p.name with
          | none => .error (notFoundMsg p neededBy)
          | some spec =>
            (manifestDeps spec.manifest bd).foldlM
              (fun v q => visit specs bd fuel v q (some p)) visited
        | .Managed mgr =>
          match findSpec specs mgr with
          | none => .error (mgrNotFoundMsg p neededBy)
          | some spec =>
            if !spec.manifest.packageManager then
              .error (str "package " ++ rustDebugStr p.ns.asStr ++
                str " is not a package manager")
            else
              (manifestDeps spec.manifest bd).foldlM
                (fun v q => visit specs bd fuel v q (some p)) visited) := rfl

/-- C6 counterexample: with `X` depending on the absent Root package
`missing`, `update_packages({X}, IfStale)` fails inside
`transitive_depends` with the message
`could not find package definition for "missing", needed by "X"`; the
message does contain `X` but does NOT contain `unsatisfiable` (that text
only appears in the no-progress-pass error for dependency cycles). -/
theorem claim_C6_counterexample :
    findSpec c6Specs (str "X") =
      some ⟨⟨false, [(.Root, [str "missing"])], []⟩, 0,
        some (str "./update.sh"), none⟩ ∧
    findSpec c6Specs (str "missing") = none ∧
    (updatePackages c6World c6Specs [⟨.Root, str "X"⟩] ⟨.IfStale, .IfStale⟩
        c6State 100).1 =
      .error (str "could not find package definition for \"missing\", needed by \"X\"") ∧
    hasSub (str "unsatisfiable")
      (str "could not find package definition for \"missing\", needed by \"X\"") =
        false ∧
    hasSub (str "X")
      (str "could not find package definition for \"missing\", needed by \"X\"") =
        true := by
  refine ⟨by decide, by decide, by decide, by decide, by decide⟩

/-- C6 amended: when `X`'s manifest declares exactly one dependency, on a
Root package `m` that is not present in the scanned specs,
`update_packages({X}, any conditions)` returns an error, but its message is
the `transitive_depends` lookup failure naming `m` and `X` ("could not
find package definition for ..., needed by ..."); the "unsatisfiable" text
is emitted only by the no-progress pass, which this scenario never
reaches. -/
theorem claim_C6_theorem (specs : PackageSpecs) (X m : List Char)
    (spec : PackageSpec) (st : CacheState) (w : World) (now : Nat)
    (conds : UpdatePackagesConditions)
    (hX : findSpec specs X = some spec)
    (hdep : spec.manifest.depends = [(.Root, [m])])
    (hbd : spec.manifest.buildDepends = [])
    (hm : findSpec specs m = none) :
    (updatePackages w specs [⟨.Root, X⟩] conds st now).1 =
      .error (str "could not find package definition for " ++
        rustDebugStr m ++ str ", needed by " ++ rustDebugStr X) := by
  have hXm : ((⟨.Root, m⟩ : FullPackageName) == ⟨.Root, X⟩) = false := by
    apply beq_eq_false_iff_ne.mpr
    intro he
    have hme : m = X := congrArg FullPackageName.name he
    rw [hme, hX] at hm
    exact Option.noConfusion hm
  have hdeps : manifestDeps spec.manifest true = [⟨.Root, m⟩] := by
    simp [manifestDeps, hdep, hbd]
  have hvisit : visit specs true (transFuel specs [⟨.Root, X⟩]) [] ⟨.Root, X⟩ none =
      .error (str "could not find package definition for " ++ rustDebugStr m ++
        str ", needed by " ++ rustDebugStr X) := by
    have hn : transFuel specs [(⟨.Root, X⟩ : FullPackageName)] =
        (specs.foldl
          (fun acc e => acc + 1 + (manifestDeps e.2.manifest true).length) 0
          + 1) + 1 + 1 := rfl
    rw [hn, visit_succ]
    simp only [List.contains, List.elem, Bool.false_eq_true, if_false,
      List.nil_append]
    rw [hX]
    simp only [hdeps, List.foldlM_cons, List.foldlM_nil]
    rw [visit_succ]
    simp only [List.contains_cons, hXm, Bool.or_false, Bool.false_eq_true,
      if_false, List.contains, List.elem]
    rw [hm]
    rfl
  have htrans : transitiveDepends specs true [⟨.Root, X⟩] =
      .error (str "could not find package definition for " ++ rustDebugStr m ++
        str ", needed by " ++ rustDebugStr X) := by
    simp only [transitiveDepends, List.foldlM_cons, List.foldlM_nil, hvisit]
    rfl
  simp only [updatePackages, htrans]

/-- C6 witness: the amended statement instantiated at the concrete
registry. -/
theorem claim_C6_witness :
    (updatePackages c6World c6Specs [⟨.Root, str "X"⟩] ⟨.Always, .Always⟩
        c6State 100).1 =
      .error (str "could not find package definition for " ++
        rustDebugStr (str "missing") ++ str ", needed by " ++
        rustDebugStr (str "X")) :=
  claim_C6_theorem c6Specs (str "X") (str "missing")
    ⟨⟨false, [(.Root, [str "missing"])], []⟩, 0, some (str "./update.sh"), none⟩
    c6State c6World 100 ⟨.Always, .Always⟩ (by decide) rfl rfl (by decide)

/-! ### Claim C8 -/

theorem findSpec_cons_pos {e : List Char × PackageSpec} {rest : PackageSpecs}
    {n : List Char} (h : e.1 = n) : findSpec (e :: rest) n = some e.2 := by
  have hp : (fun x : List Char × PackageSpec => decide (x.1 = n)) e = true := by
    simpa using h
  unfold findSpec
  rw [@List.find?_cons_of_pos (List Char × PackageSpec)
    (fun x => decide (x.1 = n)) e rest hp]
  rfl

theorem findSpec_cons_neg {e : List Char × PackageSpec} {rest : PackageSpecs}
    {n : List Char} (h : ¬e.1 = n) : findSpec (e :: rest) n = findSpec rest n := by
  have hne : ¬((fun x : List Char × PackageSpec => decide (x.1 = n)) e = true) := by
    simpa using h
  unfold findSpec
  rw [@List.find?_cons_of_neg (List Char × PackageSpec)
    (fun x => decide (x.1 = n)) e rest hne]

theorem findSpec_map (f : PackageSpec → PackageSpec) (specs : PackageSpecs)
    (n : List Char) :
    findSpec (specs.map (fun e => (e.1, f e.2))) n = (findSpec specs n).map f := by
  induction specs with
  | nil => rfl
  | cons e rest ih =>
    rw [List.map_cons]
    by_cases he : e.1 = n
    · rw [findSpec_cons_pos (show ((e.1, f e.2) : List Char × PackageSpec).1 = n
        from he), findSpec_cons_pos he]
      rfl
    · rw [findSpec_cons_neg (show ¬((e.1, f e.2) : List Char × PackageSpec).1 = n
        from he), findSpec_cons_neg he, ih]

theorem findSpec_mapSpecAt (specs : PackageSpecs) (k n : List Char)
    (f : PackageSpec → PackageSpec) :
    findSpec (mapSpecAt specs k f) n =
      if n = k then (findSpec specs n).map f else findSpec specs n := by
  induction specs with
  | nil => by_cases h : n = k <;> simp [mapSpecAt, findSpec, h]
  | cons e rest ih =>
    rw [mapSpecAt, List.map_cons]
    rw [mapSpecAt] at ih
    by_cases he1 : e.1 = k
    · rw [if_pos he1]
      by_cases he2 : e.1 = n
      · have hnk : n = k := he2 ▸ he1
        rw [findSpec_cons_pos (show ((e.1, f e.2) : List Char × PackageSpec).1 = n
          from he2), if_pos hnk, findSpec_cons_pos he2]
        rfl
      · rw [findSpec_cons_neg (show ¬((e.1, f e.2) : List Char × PackageSpec).1 = n
          from he2), ih]
        by_cases hnk : n = k
        · rw [if_pos hnk, if_pos hnk, findSpec_cons_neg he2]
        · rw [if_neg hnk, if_neg hnk, findSpec_cons_neg he2]
    · rw [if_neg he1]
      by_cases he2 : e.1 = n
      · have hnk : ¬(n = k) := fun hx => he1 (he2.trans hx)
        rw [findSpec_cons_pos he2, if_neg hnk, findSpec_cons_pos he2]
      · rw [findSpec_cons_neg he2, ih]
        by_cases hnk : n = k
        · rw [if_pos hnk, if_pos hnk, findSpec_cons_neg he2]
        · rw [if_neg hnk, if_neg hnk, findSpec_cons_neg he2]

theorem removeAutoFromManifest_idem (m : Manifest) :
    removeAutoFromManifest (removeAutoFromManifest m) = removeAutoFromManifest m := by
  unfold removeAutoFromManifest
  cases m with
  | mk pm dep bdep =>
    simp only [List.map_map]
    congr 1
    apply List.map_congr_left
    intro e _
    simp only [Function.comp_apply]
    by_cases he : e.1 = .Root
    · simp [he, List.filter_filter]
    · simp [he]

theorem stripSpec_idem (s : PackageSpec) : stripSpec (stripSpec s) = stripSpec s := by
  simp [stripSpec, removeAutoFromManifest_idem]

theorem removeAutoAt_find {specs specs2 : PackageSpecs} {q : FullPackageName}
    (h : removeAutoAt specs q = .ok specs2) (n : List Char) :
    findSpec specs2 n =
      if targetsB q n then (findSpec specs n).map stripSpec
      else findSpec specs n := by
  obtain ⟨ns, name⟩ := q
  cases ns with
  | Debian =>
    simp only [removeAutoAt] at h
    have h2 : specs = specs2 := Except.ok.inj h
    subst h2
    simp [targetsB]
  | Root =>
    simp only [removeAutoAt] at h
    by_cases hs : (findSpec specs name).isSome
    · rw [if_pos hs] at h
      have h2 := Except.ok.inj h
      subst h2
      rw [findSpec_mapSpecAt]
      have : targetsB ⟨.Root, name⟩ n = decide (n = name) := by
        simp [targetsB, eq_comm]
      rw [this]
      by_cases hnn : n = name <;> simp [hnn]
    · rw [if_neg hs] at h
      exact Except.noConfusion h
  | Managed mgr =>
    simp only [removeAutoAt] at h
    by_cases hs : (findSpec specs mgr).isSome
    · rw [if_pos hs] at h
      have h2 := Except.ok.inj h
      subst h2
      rw [findSpec_mapSpecAt]
      have : targetsB ⟨.Managed mgr, name⟩ n = decide (n = mgr) := by
        simp [targetsB, PackageNamespace.Managed.injEq, eq_comm]
      rw [this]
      by_cases hnn : n = mgr <;> simp [hnn]
    · rw [if_neg hs] at h
      exact Except.noConfusion h

theorem foldRemove_find {L : List FullPackageName} :
    ∀ {specs0 specs1 : PackageSpecs},
      L.foldlM removeAutoAt specs0 = .ok specs1 →
      ∀ n, findSpec specs1 n =
        if L.any (fun q => targetsB q n) then (findSpec specs0 n).map stripSpec
        else findSpec specs0 n := by
  induction L with
  | nil =>
    intro specs0 specs1 h n
    have h2 : specs0 = specs1 := Except.ok.inj h
    subst h2
    simp
  | cons q L2 ih =>
    intro specs0 specs1 h n
    rw [List.foldlM_cons] at h
    cases hstep : removeAutoAt specs0 q with
    | error e => rw [hstep] at h; exact Except.noConfusion h
    | ok s2 =>
      rw [hstep] at h
      have h2 : L2.foldlM removeAutoAt s2 = .ok specs1 := h
      have hs2 := removeAutoAt_find hstep n
      have hrec := ih h2 n
      by_cases ht : targetsB q n
      · by_cases ha : L2.any (fun q => targetsB q n)
        · rw [hrec, if_pos ha, hs2, if_pos ht]
          simp only [List.any_cons, ht, Bool.true_or, if_pos]
          rw [Option.map_map]
          have hcomp : stripSpec ∘ stripSpec = stripSpec := funext stripSpec_idem
          rw [hcomp]
        · rw [hrec, if_neg ha, hs2, if_pos ht]
          simp [List.any_cons, ht]
      · by_cases ha : L2.any (fun q => targetsB q n)
        · rw [hrec, if_pos ha, hs2, if_neg ht]
          simp [List.any_cons, ht, ha]
        · rw [hrec, if_neg ha, hs2, if_neg ht]
          simp only [List.any_cons, if_neg]
          rw [if_neg (by simp [ht, ha])]

theorem hasAutoDep_strip (s : PackageSpec) : hasAutoDep (stripSpec s) = false := by
  unfold hasAutoDep stripSpec removeAutoFromManifest
  rw [List.any_eq_false]
  intro x hx
  obtain ⟨e, he, hfe⟩ := List.mem_map.mp hx
  by_cases hr : e.1 = .Root
  · rw [if_pos hr] at hfe
    subst hfe
    simp only [Bool.and_eq_true, decide_eq_true_eq]
    rintro ⟨-, hcont⟩
    have hm := List.elem_iff.mp hcont
    have := (List.mem_filter.mp hm).2
    simp at this
  · rw [if_neg hr] at hfe
    subst hfe
    simp only [Bool.and_eq_true, decide_eq_true_eq]
    rintro ⟨hre, -⟩
    exact hr hre

theorem hasAutoDep_aug {s : PackageSpec} (h : hasRootKey s.manifest = true) :
    hasAutoDep (augSpec s) = true := by
  unfold hasRootKey at h
  obtain ⟨e, he, hre⟩ := List.any_eq_true.mp h
  simp only [decide_eq_true_eq] at hre
  unfold hasAutoDep augSpec addAutoToManifest
  rw [List.any_eq_true]
  refine ⟨(e.1, if e.2.contains (str "auto") then e.2 else str "auto" :: e.2),
    List.mem_map.mpr ⟨e, he, by rw [if_pos hre]⟩, ?_⟩
  simp only [Bool.and_eq_true, decide_eq_true_eq]
  refine ⟨hre, ?_⟩
  by_cases hc : str "auto" ∈ e.2 <;> simp [hc]

theorem findSpec_some_mem {specs : PackageSpecs} {n : List Char} {sp : PackageSpec}
    (h : findSpec specs n = some sp) : ∃ e ∈ specs, e.1 = n ∧ e.2 = sp := by
  unfold findSpec at h
  cases hf : specs.find? (fun e => decide (e.1 = n)) with
  | none => rw [hf] at h; exact Option.noConfusion h
  | some e =>
    rw [hf] at h
    refine ⟨e, List.mem_of_find?_eq_some hf, ?_, Option.some.inj h⟩
    have := List.find?_some hf
    simpa using this

/-- C8 counterexample: scanning the registry where `auto` has a managed
dependency `npm.x` (and `npm` is a package manager) yields specs in which
the root package `npm` has NO runtime dependency on `auto`, even though
`npm`'s own `FullPackageName` (Root, npm) is not in the transitive
build-closure of `auto` — the closure contains the Managed entry `npm.x`,
and the removal loop strips the auto edge from the MANAGER's spec. -/
theorem claim_C8_counterexample :
    scanPackagesFrom c8Raw = .ok c8Raw ∧
    findSpec c8Raw (str "npm") = some ⟨⟨true, [(.Root, [])], []⟩, 0, none, none⟩ ∧
    hasAutoDep (⟨⟨true, [(.Root, [])], []⟩, 0, none, none⟩ : PackageSpec) = false ∧
    transitiveDepends c8Raw true [⟨.Root, str "auto"⟩] =
      .ok [⟨.Root, str "auto"⟩, ⟨.Managed (str "npm"), str "x"⟩] ∧
    ((⟨.Root, str "npm"⟩ : FullPackageName) ∉
      [(⟨.Root, str "auto"⟩ : FullPackageName), ⟨.Managed (str "npm"), str "x"⟩]) := by
  refine ⟨by decide, by decide, by decide, by decide, by decide⟩

/-- C8 amended: after a successful scan, a discovered spec keyed `n` keeps
the synthetic runtime dependency on Root `auto` iff the closure of `auto`
(computed on the augmented specs) contains neither the Root entry `n` nor
any Managed-namespace entry whose manager is `n`.  (The original claim
omitted the manager case: a Managed entry `n.x` in the closure strips the
edge from the spec of the manager `n` itself.) -/
theorem claim_C8_theorem (raw final : PackageSpecs)
    (autoDeps : List FullPackageName)
    (hroot : ∀ e ∈ raw, hasRootKey e.2.manifest = true)
    (hclo : transitiveDepends (raw.map (fun e => (e.1, augSpec e.2))) true
      [⟨.Root, str "auto"⟩] = .ok autoDeps)
    (hscan : scanPackagesFrom raw = .ok final) :
    ∀ n sp, findSpec final n = some sp →
      (hasAutoDep sp = true ↔
        ((⟨.Root, n⟩ : FullPackageName) ∉ autoDeps ∧
          ∀ q ∈ autoDeps, q.ns ≠ .Managed n)) := by
  intro n sp hfind
  have heq : scanPackagesFrom raw =
      (match transitiveDepends (raw.map (fun e => (e.1, augSpec e.2))) true
        [⟨.Root, str "auto"⟩] with
      | .error e => .error e
      | .ok deps =>
        List.foldlM removeAutoAt (raw.map (fun e => (e.1, augSpec e.2))) deps) := rfl
  rw [heq, hclo] at hscan
  have hscan2 : List.foldlM removeAutoAt
      (raw.map (fun e => (e.1, augSpec e.2))) autoDeps = .ok final := hscan
  have hfold := foldRemove_find hscan2 n
  rw [findSpec_map] at hfold
  by_cases hany : autoDeps.any (fun q => targetsB q n)
  · rw [if_pos hany] at hfold
    rw [hfold] at hfind
    cases hraw : findSpec raw n with
    | none => rw [hraw] at hfind; exact Option.noConfusion hfind
    | some rawSp =>
      rw [hraw] at hfind
      have hsp : sp = stripSpec (augSpec rawSp) :=
        (Option.some.inj hfind).symm
      rw [hsp, hasAutoDep_strip]
      obtain ⟨q, hq, htq⟩ := List.any_eq_true.mp hany
      constructor
      · intro hfalse; exact absurd hfalse (by simp)
      · rintro ⟨hnot, hmg⟩
        exfalso
        simp only [targetsB, Bool.or_eq_true, Bool.and_eq_true,
          decide_eq_true_eq] at htq
        rcases htq with ⟨hr, hn⟩ | hm
        · apply hnot
          have : q = ⟨.Root, n⟩ := by
            obtain ⟨qns, qname⟩ := q
            simp only at hr hn
            rw [hr, hn]
          exact this ▸ hq
        · exact absurd hm (hmg q hq)
  · rw [if_neg hany] at hfold
    rw [hfold] at hfind
    cases hraw : findSpec raw n with
    | none => rw [hraw] at hfind; exact Option.noConfusion hfind
    | some rawSp =>
      rw [hraw] at hfind
      have hsp : sp = augSpec rawSp := (Option.some.inj hfind).symm
      obtain ⟨e, he, -, hesp⟩ := findSpec_some_mem hraw
      have haug : hasAutoDep (augSpec rawSp) = true :=
        hasAutoDep_aug (hesp ▸ hroot e he)
      rw [hsp, haug]
      have hall := List.any_eq_false.mp (Bool.not_eq_true _ ▸ hany)
      constructor
      · intro _
        constructor
        · intro hmem
          apply hall _ hmem
          simp [targetsB]
        · intro q hq hm
          apply hall q hq
          simp [targetsB, hm]
      · intro _
        rfl

/-- C8 witness: the amended characterization instantiated at the concrete
registry: `npm` keeps no auto edge and indeed the closure contains the
Managed entry `npm.x`. -/
theorem claim_C8_witness :
    hasAutoDep (⟨⟨true, [(.Root, [])], []⟩, 0, none, none⟩ : PackageSpec) = true ↔
      ((⟨.Root, str "npm"⟩ : FullPackageName) ∉
          [(⟨.Root, str "auto"⟩ : FullPackageName),
            ⟨.Managed (str "npm"), str "x"⟩] ∧
        ∀ q ∈ [(⟨.Root, str "auto"⟩ : FullPackageName),
            ⟨.Managed (str "npm"), str "x"⟩],
          q.ns ≠ .Managed (str "npm")) :=
  claim_C8_theorem c8Raw c8Raw
    [⟨.Root, str "auto"⟩, ⟨.Managed (str "npm"), str "x"⟩]
    (by decide) (by decide) (by decide)
    (str "npm") ⟨⟨true, [(.Root, [])], []⟩, 0, none, none⟩ (by decide)

/-! ### Cache file-name disjointness -/

theorem tar_ne_failed (a b : List Char) : a ++ str ".tar" ≠ b ++ str ".failed" := by
  intro h
  have h2 := congrArg List.getLast? h
  rw [List.getLast?_append, List.getLast?_append] at h2
  have h3 : (some 'r' : Option Char) = some 'd' := h2
  exact absurd h3 (by decide)

theorem testing_ne_failed (a b : List Char) :
    a ++ str ".testing.tar" ≠ b ++ str ".failed" := by
  intro h
  have h2 := congrArg List.getLast? h
  rw [List.getLast?_append, List.getLast?_append] at h2
  have h3 : (some 'r' : Option Char) = some 'd' := h2
  exact absurd h3 (by decide)

theorem tarName_ne_failedMarkerName (p q : FullPackageName) :
    tarName p ≠ failedMarkerName q :=
  tar_ne_failed p.asFilenameComponent q.asFilenameComponent

theorem testingTarName_ne_failedMarkerName (p q : FullPackageName) :
    testingTarName p ≠ failedMarkerName q :=
  testing_ne_failed p.asFilenameComponent q.asFilenameComponent

theorem tarName_ne_testingTarName_self (p q : FullPackageName)
    (h : p.asFilenameComponent ≠ q.asFilenameComponent ++ str ".testing") :
    tarName p ≠ testingTarName q := by
  intro he
  apply h
  unfold tarName testingTarName at he
  have : q.asFilenameComponent ++ str ".testing.tar" =
      (q.asFilenameComponent ++ str ".testing") ++ str ".tar" := by
    simp [str, List.append_assoc]
  rw [this] at he
  exact List.append_cancel_right he

theorem failedMarkerName_inj {p q : FullPackageName}
    (h : failedMarkerName p = failedMarkerName q) :
    p.asFilenameComponent = q.asFilenameComponent :=
  List.append_cancel_right h

theorem tarName_inj {p q : FullPackageName} (h : tarName p = tarName q) :
    p.asFilenameComponent = q.asFilenameComponent :=
  List.append_cancel_right h

/-! ### Effect lemmas for `updatePackage` -/

theorem setFile_get (st : CacheState) (k : List Char) (v : FileData)
    (x : List Char) :
    (setFile st k v).files x = if x = k then some v else st.files x := rfl

theorem removeFile_get (st : CacheState) (k : List Char) (x : List Char) :
    (removeFile st k).files x = if x = k then none else st.files x := rfl

theorem updatePackage_eq_buildFail (w : World) (st : CacheState)
    (q : FullPackageName) (spec : PackageSpec) (hb : w.buildResult q = none) :
    updatePackage w st q spec =
      (if (st.files (tarName q)).isSome then
        (.ok (), addWarning (setFile st (failedMarkerName q) ⟨0, 0⟩)
          (str "using stale version of " ++ displayFullPackageName q ++
            str ": " ++ (str "failed to update package: " ++
              displayFullPackageName q ++ str ": " ++
              (str "error building package " ++ displayFullPackageName q))))
      else
        (.error (str "failed to update package: " ++ displayFullPackageName q ++
            str ": " ++ (str "error building package " ++ displayFullPackageName q)),
          setFile st (failedMarkerName q) ⟨0, 0⟩)) := by
  have hne2 : tarName q ≠ failedMarkerName q := tarName_ne_failedMarkerName q q
  unfold updatePackage updatePackageInner
  rw [hb]
  simp only [setFile, addWarning, hne2, if_false]

theorem updatePackage_eq_testFail (w : World) (st : CacheState)
    (q : FullPackageName) (spec : PackageSpec) (content : Nat)
    (hb : w.buildResult q = some content)
    (ht : (spec.test.isSome && !w.testOk q) = true) :
    updatePackage w st q spec =
      (if ((setFile (setFile st (testingTarName q) ⟨w.buildMtime q, content⟩)
          (failedMarkerName q) ⟨0, 0⟩).files (tarName q)).isSome then
        (.ok (), addWarning (setFile (setFile st (testingTarName q)
            ⟨w.buildMtime q, content⟩) (failedMarkerName q) ⟨0, 0⟩)
          (str "using stale version of " ++ displayFullPackageName q ++
            str ": " ++ (str "failed to update package: " ++
              displayFullPackageName q ++ str ": " ++
              (str "error testing package " ++ displayFullPackageName q))))
      else
        (.error (str "failed to update package: " ++ displayFullPackageName q ++
            str ": " ++ (str "error testing package " ++ displayFullPackageName q)),
          setFile (setFile st (testingTarName q) ⟨w.buildMtime q, content⟩)
            (failedMarkerName q) ⟨0, 0⟩)) := by
  unfold updatePackage updatePackageInner
  rw [hb]
  simp only [ht, if_true]

theorem updatePackage_eq_buildOk (w : World) (st : CacheState)
    (q : FullPackageName) (spec : PackageSpec) (content : Nat)
    (hb : w.buildResult q = some content)
    (ht : (spec.test.isSome && !w.testOk q) = false) :
    updatePackage w st q spec =
      (.ok (), removeFile (setFile
        (removeFile (setFile st (testingTarName q) ⟨w.buildMtime q, content⟩)
          (testingTarName q))
        (tarName q) ⟨w.buildMtime q, content⟩) (failedMarkerName q)) := by
  unfold updatePackage updatePackageInner
  rw [hb]
  simp only [ht, Bool.false_eq_true, if_false]
  simp [setFile]

theorem updatePackage_files_frame (w : World) (st : CacheState)
    (q : FullPackageName) (spec : PackageSpec) (K : List Char)
    (h1 : K ≠ testingTarName q) (h2 : K ≠ tarName q)
    (h3 : K ≠ failedMarkerName q) :
    (updatePackage w st q spec).2.files K = st.files K := by
  cases hb : w.buildResult q with
  | none =>
    rw [updatePackage_eq_buildFail w st q spec hb]
    split_ifs <;> simp [setFile, addWarning, h3]
  | some content =>
    cases ht : spec.test.isSome && !w.testOk q with
    | true =>
      rw [updatePackage_eq_testFail w st q spec content hb ht]
      split_ifs <;> simp [setFile, addWarning, h1, h3]
    | false =>
      rw [updatePackage_eq_buildOk w st q spec content hb ht]
      simp [setFile, removeFile, h1, h2, h3]

theorem updatePackage_files_isSome (w : World) (st : CacheState)
    (q : FullPackageName) (spec : PackageSpec) (K : List Char)
    (h1 : K ≠ testingTarName q) (h3 : K ≠ failedMarkerName q)
    (h : (st.files K).isSome = true) :
    ((updatePackage w st q spec).2.files K).isSome = true := by
  by_cases h2 : K = tarName q
  · subst h2
    cases hb : w.buildResult q with
    | none =>
      rw [updatePackage_eq_buildFail w st q spec hb]
      split_ifs
      simp [setFile, addWarning, h3, h]
    | some content =>
      cases ht : spec.test.isSome && !w.testOk q with
      | true =>
        rw [updatePackage_eq_testFail w st q spec content hb ht]
        split_ifs <;> simp [setFile, addWarning, h1, h3, h]
      | false =>
        rw [updatePackage_eq_buildOk w st q spec content hb ht]
        simp [setFile, removeFile, h3]
  · rw [updatePackage_files_frame w st q spec K h1 h2 h3]
    exact h

theorem updatePackage_ok_tar (w : World) (st : CacheState) (q : FullPackageName)
    (spec : PackageSpec) (h : (updatePackage w st q spec).1 = .ok ()) :
    (((updatePackage w st q spec).2).files (tarName q)).isSome = true := by
  have hne1 : tarName q ≠ testingTarName q := by
    apply tarName_ne_testingTarName_self
    intro hx
    have hlen := congrArg List.length hx
    simp [str] at hlen
  have hne2 : tarName q ≠ failedMarkerName q := tarName_ne_failedMarkerName q q
  cases hb : w.buildResult q with
  | none =>
    rw [updatePackage_eq_buildFail w st q spec hb] at h ⊢
    split_ifs at h ⊢ with hs
    simpa [setFile, addWarning, hne2] using hs
  | some content =>
    cases ht : spec.test.isSome && !w.testOk q with
    | true =>
      rw [updatePackage_eq_testFail w st q spec content hb ht] at h ⊢
      split_ifs at h ⊢ with hs
      simpa [setFile, addWarning, hne1, hne2] using hs
    | false =>
      rw [updatePackage_eq_buildOk w st q spec content hb ht]
      simp [setFile, removeFile, hne2]

theorem updatePackage_fallback (w : World) (st : CacheState)
    (q : FullPackageName) (spec : PackageSpec)
    (hb : w.buildResult q = none) (htar : (st.files (tarName q)).isSome = true) :
    (updatePackage w st q spec).1 = .ok () ∧
    (updatePackage w st q spec).2.files (tarName q) = st.files (tarName q) ∧
    (updatePackage w st q spec).2.files (failedMarkerName q) =
      some ⟨0, 0⟩ ∧
    (updatePackage w st q spec).2.warnings = st.warnings ++
      [str "using stale version of " ++ displayFullPackageName q ++ str ": " ++
        (str "failed to update package: " ++ displayFullPackageName q ++
          str ": " ++
          (str "error building package " ++ displayFullPackageName q))] := by
  have hne2 : tarName q ≠ failedMarkerName q := tarName_ne_failedMarkerName q q
  rw [updatePackage_eq_buildFail w st q spec hb]
  rw [if_pos htar]
  refine ⟨rfl, ?_, ?_, rfl⟩
  · simp [setFile, addWarning, hne2]
  · simp [setFile, addWarning]

theorem updatePackage_warnings_mono (w : World) (st : CacheState)
    (q : FullPackageName) (spec : PackageSpec) :
    ∃ ex, (updatePackage w st q spec).2.warnings = st.warnings ++ ex := by
  cases hb : w.buildResult q with
  | none =>
    rw [updatePackage_eq_buildFail w st q spec hb]
    split_ifs
    · exact ⟨_, rfl⟩
    · exact ⟨[], by simp [setFile]⟩
  | some content =>
    cases ht : spec.test.isSome && !w.testOk q with
    | true =>
      rw [updatePackage_eq_testFail w st q spec content hb ht]
      split_ifs
      · exact ⟨_, rfl⟩
      · exact ⟨[], by simp [setFile]⟩
    | false =>
      rw [updatePackage_eq_buildOk w st q spec content hb ht]
      exact ⟨[], by simp [setFile, removeFile]⟩

/-! ### Closure and sorting lemmas -/

theorem filter_nonDebian_map_debian (ns : PackageNamespace)
    (l : List (List Char)) (h : ns = .Debian) :
    ((l.map (fun n => (⟨ns, n⟩ : FullPackageName))).filter
      (fun q => !decide (q.ns = .Debian))) = [] := by
  induction l with
  | nil => rfl
  | cons a rest ih => simp [List.filter_cons, h, ih]

theorem filter_nonDebian_map_other (ns : PackageNamespace)
    (l : List (List Char)) (h : ¬ns = .Debian) :
    ((l.map (fun n => (⟨ns, n⟩ : FullPackageName))).filter
      (fun q => !decide (q.ns = .Debian))) =
      l.map (fun n => (⟨ns, n⟩ : FullPackageName)) := by
  induction l with
  | nil => rfl
  | cons a rest ih => simp [List.filter_cons, h, ih]

theorem depsReadyAux (done : List FullPackageName) :
    ∀ L : List (PackageNamespace × List (List Char)),
      (L.all (fun e => decide (e.1 = .Debian) ||
        e.2.all (fun n => done.contains (⟨e.1, n⟩ : FullPackageName)))) =
      ((L.flatMap (fun e => e.2.map (fun n => (⟨e.1, n⟩ : FullPackageName)))).filter
        (fun q => !decide (q.ns = .Debian))).all (fun a => done.contains a) := by
  intro L
  induction L with
  | nil => rfl
  | cons e rest ih =>
    rw [List.all_cons, List.flatMap_cons, List.filter_append, List.all_append, ← ih]
    congr 1
    by_cases hd : e.1 = .Debian
    · rw [filter_nonDebian_map_debian e.1 e.2 hd]
      simp [hd]
    · rw [filter_nonDebian_map_other e.1 e.2 hd]
      simp only [decide_eq_false_iff_not.mpr hd, Bool.false_or]
      have hall : ∀ l : List (List Char),
          (l.map (fun n => (⟨e.1, n⟩ : FullPackageName))).all
            (fun a => done.contains a) =
          l.all (fun n => done.contains (⟨e.1, n⟩ : FullPackageName)) := by
        intro l
        induction l with
        | nil => rfl
        | cons a r ih2 => rw [List.map_cons, List.all_cons, List.all_cons, ih2]
      rw [hall]

theorem depsReady_eq (spec : PackageSpec) (done : List FullPackageName) :
    depsReady spec done = (nonDebianDeps spec).all (fun a => done.contains a) :=
  depsReadyAux done (spec.manifest.depends ++ spec.manifest.buildDepends)

theorem visit_props (specs : PackageSpecs) (bd : Bool) :
    ∀ (fuel : Nat) (visited : List FullPackageName) (p : FullPackageName)
      (nb : Option FullPackageName) (r : List FullPackageName),
      visit specs bd fuel visited p nb = .ok r →
      (∀ x ∈ visited, x ∈ r) ∧ p ∈ r ∧ (visited.Nodup → r.Nodup) := by
  intro fuel
  induction fuel with
  | zero =>
    intro visited p nb r h
    exact absurd h (by simp [visit])
  | succ n ih =>
    have aux : ∀ (ds : List FullPackageName) (p0 : FullPackageName)
        (v r : List FullPackageName),
        List.foldlM (fun v q => visit specs bd n v q (some p0)) v ds = .ok r →
        (∀ x ∈ v, x ∈ r) ∧ (v.Nodup → r.Nodup) := by
      intro ds
      induction ds with
      | nil =>
        intro p0 v r h
        have hvr : v = r := Except.ok.inj h
        subst hvr
        exact ⟨fun x hx => hx, id⟩
      | cons d rest ihds =>
        intro p0 v r h
        rw [List.foldlM_cons] at h
        cases hstep : visit specs bd n v d (some p0) with
        | error e => rw [hstep] at h; exact Except.noConfusion h
        | ok v2 =>
          rw [hstep] at h
          have h2 : List.foldlM (fun v q => visit specs bd n v q (some p0))
              v2 rest = .ok r := h
          obtain ⟨hsub1, _, hnd1⟩ := ih v d (some p0) v2 hstep
          obtain ⟨hsub2, hnd2⟩ := ihds p0 v2 r h2
          exact ⟨fun x hx => hsub2 x (hsub1 x hx), fun hnd => hnd2 (hnd1 hnd)⟩
    intro visited p nb r h
    rw [visit_succ] at h
    by_cases hc : visited.contains p
    · rw [if_pos hc] at h
      have hvr : visited = r := Except.ok.inj h
      subst hvr
      exact ⟨fun x hx => hx, List.elem_iff.mp hc, id⟩
    · rw [if_neg hc] at h
      have hpn : p ∉ visited := fun hm => hc (List.elem_iff.mpr hm)
      have hext : ∀ r2 : List FullPackageName, (∀ x ∈ visited ++ [p], x ∈ r2) →
          ((visited ++ [p]).Nodup → r2.Nodup) →
          (∀ x ∈ visited, x ∈ r2) ∧ p ∈ r2 ∧ (visited.Nodup → r2.Nodup) := by
        intro r2 hs hn
        refine ⟨fun x hx => hs x (List.mem_append.mpr (Or.inl hx)),
          hs p (List.mem_append.mpr (Or.inr (List.mem_singleton.mpr rfl))),
          fun hnd => hn ?_⟩
        rw [List.nodup_append]
        exact ⟨hnd, List.nodup_singleton p, by simpa using hpn⟩
      obtain ⟨pns, pname⟩ := p
      cases pns with
      | Debian =>
        simp only [] at h
        have hvr : visited ++ [⟨.Debian, pname⟩] = r := Except.ok.inj h
        subst hvr
        exact hext _ (fun x hx => hx) id
      | Root =>
        simp only [] at h
        cases hfind : findSpec specs pname with
        | none => rw [hfind] at h; exact Except.noConfusion h
        | some spec =>
          rw [hfind] at h
          simp only [] at h
          obtain ⟨hsub, hnd⟩ := aux _ _ _ _ h
          exact hext r hsub hnd
      | Managed mgr =>
        simp only [] at h
        cases hfind : findSpec specs mgr with
        | none => rw [hfind] at h; exact Except.noConfusion h
        | some spec =>
          rw [hfind] at h
          simp only [] at h
          by_cases hpm : spec.manifest.packageManager
          · rw [if_neg (by simp [hpm])] at h
            obtain ⟨hsub, hnd⟩ := aux _ _ _ _ h
            exact hext r hsub hnd
          · rw [if_pos (by simp [hpm])] at h
            exact Except.noConfusion h

theorem transitiveDepends_props (specs : PackageSpecs) (bd : Bool)
    (packages : List FullPackageName) (r : List FullPackageName)
    (h : transitiveDepends specs bd packages = .ok r) :
    (∀ p ∈ packages, p ∈ r) ∧ r.Nodup := by
  unfold transitiveDepends at h
  suffices haux : ∀ (ps : List FullPackageName) (v r : List FullPackageName),
      List.foldlM (fun v p =>
        visit specs bd (transFuel specs packages) v p none) v ps = .ok r →
      (∀ x ∈ v, x ∈ r) ∧ (∀ p ∈ ps, p ∈ r) ∧ (v.Nodup → r.Nodup) by
    obtain ⟨_, hmem, hnd⟩ := haux packages [] r h
    exact ⟨hmem, hnd List.nodup_nil⟩
  intro ps
  induction ps with
  | nil =>
    intro v r h
    have hvr : v = r := Except.ok.inj h
    subst hvr
    exact ⟨fun x hx => hx, fun p hp => absurd hp (List.not_mem_nil p), id⟩
  | cons p rest ihps =>
    intro v r h
    rw [List.foldlM_cons] at h
    cases hstep : visit specs bd (transFuel specs packages) v p none with
    | error e => rw [hstep] at h; exact Except.noConfusion h
    | ok v2 =>
      rw [hstep] at h
      have h2 : List.foldlM (fun v p =>
          visit specs bd (transFuel specs packages) v p none) v2 rest = .ok r := h
      obtain ⟨hsub1, hm1, hnd1⟩ :=
        visit_props specs bd (transFuel specs packages) v p none v2 hstep
      obtain ⟨hsub2, hm2, hnd2⟩ := ihps v2 r h2
      refine ⟨fun x hx => hsub2 x (hsub1 x hx), ?_, fun hnd => hnd2 (hnd1 hnd)⟩
      intro q hq
      rcases List.mem_cons.mp hq with hq | hq
      · subst hq; exact hsub2 q hm1
      · exact hm2 q hq

theorem mem_insertSorted (a b : FullPackageName) (l : List FullPackageName) :
    a ∈ insertSorted b l ↔ a = b ∨ a ∈ l := by
  induction l with
  | nil => simp [insertSorted]
  | cons c rest ih =>
    unfold insertSorted
    by_cases hle : fullLe b c
    · simp [hle]
    · simp only [hle, Bool.false_eq_true, if_false, List.mem_cons, ih]
      tauto

theorem mem_sortNames (a : FullPackageName) (l : List FullPackageName) :
    a ∈ sortNames l ↔ a ∈ l := by
  induction l with
  | nil => simp [sortNames]
  | cons b rest ih =>
    unfold sortNames
    rw [mem_insertSorted, ih, List.mem_cons]

theorem nodup_insertSorted (b : FullPackageName) :
    ∀ l : List FullPackageName, b ∉ l → l.Nodup → (insertSorted b l).Nodup := by
  intro l
  induction l with
  | nil => intro _ _; simp [insertSorted]
  | cons c rest ih =>
    intro hb hl
    rw [List.nodup_cons] at hl
    unfold insertSorted
    by_cases hle : fullLe b c
    · rw [if_pos hle, List.nodup_cons, List.nodup_cons]
      exact ⟨hb, hl.1, hl.2⟩
    · rw [if_neg hle, List.nodup_cons]
      have hbrest : b ∉ rest := fun hm => hb (List.mem_cons_of_mem c hm)
      have hbc : ¬(b = c) := fun he => hb (he ▸ List.mem_cons_self c rest)
      refine ⟨?_, ih hbrest hl.2⟩
      intro hm
      rcases (mem_insertSorted c b rest).mp hm with hcb | hcr
      · exact hbc hcb.symm
      · exact hl.1 hcr

theorem nodup_sortNames (l : List FullPackageName) (h : l.Nodup) :
    (sortNames l).Nodup := by
  induction l with
  | nil => simp [sortNames]
  | cons b rest ih =>
    unfold sortNames
    rw [List.nodup_cons] at h
    exact nodup_insertSorted b (sortNames rest)
      (fun hm => h.1 ((mem_sortNames b rest).mp hm)) (ih h.2)

/-! ### Pass-level lemmas for the update loop -/

theorem processPass_nil (w : World) (specs : PackageSpecs)
    (conds : UpdatePackagesConditions) (packages : List FullPackageName)
    (now : Nat) (done later : List FullPackageName) (st : CacheState) :
    processPass w specs conds packages now [] done later st =
      (.ok (), done, later, st) := rfl

theorem processPass_cons (w : World) (specs : PackageSpecs)
    (conds : UpdatePackagesConditions) (packages : List FullPackageName)
    (now : Nat) (p : FullPackageName) (rest done later : List FullPackageName)
    (st : CacheState) :
    processPass w specs conds packages now (p :: rest) done later st =
      (match lookupSpecFor specs p with
      | .error e => (.error e, done, later, st)
      | .ok spec =>
        if depsReady spec done then
          if needsBuildFor w st conds packages now p spec then
            match updatePackage w st p spec with
            | (.ok _, st1) =>
              processPass w specs conds packages now rest (p :: done) later st1
            | (.error e, st1) => (.error e, done, later, st1)
          else processPass w specs conds packages now rest (p :: done) later st
        else processPass w specs conds packages now rest done (later ++ [p]) st) :=
  rfl

theorem pp_later_sub (w : World) (specs : PackageSpecs)
    (conds : UpdatePackagesConditions) (packages : List FullPackageName)
    (now : Nat) :
    ∀ (todo done later : List FullPackageName) (st : CacheState),
      ∀ q ∈ (processPass w specs conds packages now todo done later st).2.2.1,
        q ∈ todo ∨ q ∈ later := by
  intro todo
  induction todo with
  | nil =>
    intro done later st q hq
    exact Or.inr hq
  | cons p rest ih =>
    intro done later st q hq
    rw [processPass_cons] at hq
    cases hlk : lookupSpecFor specs p with
    | error e =>
      rw [hlk] at hq
      simp only [] at hq
      exact Or.inr hq
    | ok spec =>
      rw [hlk] at hq
      simp only [] at hq
      by_cases hdr : depsReady spec done
      · rw [if_pos hdr] at hq
        by_cases hnb : needsBuildFor w st conds packages now p spec
        · rw [if_pos hnb] at hq
          cases hup : updatePackage w st p spec with
          | mk r1 st1 =>
            cases r1 with
            | ok u =>
              rw [hup] at hq
              simp only [] at hq
              rcases ih (p :: done) later st1 q hq with h | h
              · exact Or.inl (List.mem_cons_of_mem p h)
              · exact Or.inr h
            | error e =>
              rw [hup] at hq
              simp only [] at hq
              exact Or.inr hq
        · rw [if_neg hnb] at hq
          rcases ih (p :: done) later st q hq with h | h
          · exact Or.inl (List.mem_cons_of_mem p h)
          · exact Or.inr h
      · rw [if_neg hdr] at hq
        rcases ih done (later ++ [p]) st q hq with h | h
        · exact Or.inl (List.mem_cons_of_mem p h)
        · rcases List.mem_append.mp h with h2 | h2
          · exact Or.inr h2
          · exact Or.inl (List.mem_cons.mpr (Or.inl (List.mem_singleton.mp h2)))

theorem pp_later_mono (w : World) (specs : PackageSpecs)
    (conds : UpdatePackagesConditions) (packages : List FullPackageName)
    (now : Nat) :
    ∀ (todo done later : List FullPackageName) (st : CacheState),
      ∀ q ∈ later,
        q ∈ (processPass w specs conds packages now todo done later st).2.2.1 := by
  intro todo
  induction todo with
  | nil => intro done later st q hq; exact hq
  | cons p rest ih =>
    intro done later st q hq
    rw [processPass_cons]
    cases hlk : lookupSpecFor specs p with
    | error e => simp only []; exact hq
    | ok spec =>
      simp only []
      by_cases hdr : depsReady spec done
      · rw [if_pos hdr]
        by_cases hnb : needsBuildFor w st conds packages now p spec
        · rw [if_pos hnb]
          cases hup : updatePackage w st p spec with
          | mk r1 st1 =>
            cases r1 with
            | ok u => exact ih (p :: done) later st1 q hq
            | error e => exact hq
        · rw [if_neg hnb]
          exact ih (p :: done) later st q hq
      · rw [if_neg hdr]
        exact ih done (later ++ [p]) st q (List.mem_append.mpr (Or.inl hq))

theorem pp_done_mono (w : World) (specs : PackageSpecs)
    (conds : UpdatePackagesConditions) (packages : List FullPackageName)
    (now : Nat) :
    ∀ (todo done later : List FullPackageName) (st : CacheState),
      ∀ q ∈ done,
        q ∈ (processPass w specs conds packages now todo done later st).2.1 := by
  intro todo
  induction todo with
  | nil => intro done later st q hq; exact hq
  | cons p rest ih =>
    intro done later st q hq
    rw [processPass_cons]
    cases hlk : lookupSpecFor specs p with
    | error e => simp only []; exact hq
    | ok spec =>
      simp only []
      by_cases hdr : depsReady spec done
      · rw [if_pos hdr]
        by_cases hnb : needsBuildFor w st conds packages now p spec
        · rw [if_pos hnb]
          cases hup : updatePackage w st p spec with
          | mk r1 st1 =>
            cases r1 with
            | ok u => exact ih (p :: done) later st1 q (List.mem_cons_of_mem p hq)
            | error e => exact hq
        · rw [if_neg hnb]
          exact ih (p :: done) later st q (List.mem_cons_of_mem p hq)
      · rw [if_neg hdr]
        exact ih done (later ++ [p]) st q hq

theorem pp_prog (w : World) (specs : PackageSpecs)
    (conds : UpdatePackagesConditions) (packages : List FullPackageName)
    (now : Nat) (p0 : FullPackageName) :
    ∀ (todo done later : List FullPackageName) (st : CacheState),
      (processPass w specs conds packages now todo done later st).1 = .ok () →
      p0 ∈ todo →
      p0 ∈ (processPass w specs conds packages now todo done later st).2.1 ∨
        p0 ∈ (processPass w specs conds packages now todo done later st).2.2.1 := by
  intro todo
  induction todo with
  | nil =>
    intro done later st hok hP
    exact absurd hP (List.not_mem_nil p0)
  | cons p rest ih =>
    intro done later st hok hP
    rw [processPass_cons] at hok ⊢
    cases hlk : lookupSpecFor specs p with
    | error e =>
      rw [hlk] at hok
      exact absurd hok (by simp)
    | ok spec =>
      rw [hlk] at hok
      simp only [] at hok ⊢
      by_cases hdr : depsReady spec done
      · rw [if_pos hdr] at hok ⊢
        by_cases hnb : needsBuildFor w st conds packages now p spec
        · rw [if_pos hnb] at hok ⊢
          cases hup : updatePackage w st p spec with
          | mk r1 st1 =>
            rw [hup] at hok
            cases r1 with
            | ok u =>
              simp only [] at hok ⊢
              rcases List.mem_cons.mp hP with hP | hP
              · subst hP
                exact Or.inl (pp_done_mono w specs conds packages now rest
                  (p0 :: done) later st1 p0 (List.mem_cons_self p0 done))
              · exact ih (p :: done) later st1 hok hP
            | error e =>
              exact absurd hok (by simp)
        · rw [if_neg hnb] at hok ⊢
          rcases List.mem_cons.mp hP with hP | hP
          · subst hP
            exact Or.inl (pp_done_mono w specs conds packages now rest
              (p0 :: done) later st p0 (List.mem_cons_self p0 done))
          · exact ih (p :: done) later st hok hP
      · rw [if_neg hdr] at hok ⊢
        rcases List.mem_cons.mp hP with hP | hP
        · subst hP
          exact Or.inr (pp_later_mono w specs conds packages now rest done
            (later ++ [p0]) st p0
            (List.mem_append.mpr (Or.inr (List.mem_singleton.mpr rfl))))
        · exact ih done (later ++ [p]) st hok hP

theorem pp_phi (w : World) (specs : PackageSpecs)
    (conds : UpdatePackagesConditions) (packages : List FullPackageName)
    (now : Nat) (Φ : List FullPackageName → CacheState → Prop) :
    ∀ (todo done later : List FullPackageName) (st : CacheState),
      (∀ q ∈ todo, StepOk w specs conds packages now Φ q) →
      Φ done st →
      (processPass w specs conds packages now todo done later st).1 = .ok () →
      Φ (processPass w specs conds packages now todo done later st).2.1
        (processPass w specs conds packages now todo done later st).2.2.2 := by
  intro todo
  induction todo with
  | nil => intro done later st _ hphi _; exact hphi
  | cons p rest ih =>
    intro done later st hstep hphi hok
    rw [processPass_cons] at hok ⊢
    cases hlk : lookupSpecFor specs p with
    | error e =>
      rw [hlk] at hok
      exact absurd hok (by simp)
    | ok spec =>
      rw [hlk] at hok
      simp only [] at hok ⊢
      by_cases hdr : depsReady spec done
      · rw [if_pos hdr] at hok ⊢
        by_cases hnb : needsBuildFor w st conds packages now p spec
        · rw [if_pos hnb] at hok ⊢
          cases hup : updatePackage w st p spec with
          | mk r1 st1 =>
            rw [hup] at hok
            cases r1 with
            | ok u =>
              simp only [] at hok ⊢
              have hstepP := hstep p (List.mem_cons_self p rest) spec done st hlk hdr hphi
              have hb2 := hstepP.2 st1 hnb (by cases u; exact hup)
              exact ih (p :: done) later st1
                (fun q hq => hstep q (List.mem_cons_of_mem p hq)) hb2 hok
            | error e =>
              exact absurd hok (by simp)
        · rw [if_neg hnb] at hok ⊢
          have hstepP := hstep p (List.mem_cons_self p rest) spec done st hlk hdr hphi
          exact ih (p :: done) later st
            (fun q hq => hstep q (List.mem_cons_of_mem p hq))
            (hstepP.1 (Bool.eq_false_iff.mpr hnb)) hok
      · rw [if_neg hdr] at hok ⊢
        exact ih done (later ++ [p]) st
          (fun q hq => hstep q (List.mem_cons_of_mem p hq)) hphi hok

theorem goodOrderB_cons (specs : PackageSpecs) (p : FullPackageName)
    (done : List FullPackageName) :
    goodOrderB specs (p :: done) =
      ((match lookupSpecFor specs p with
        | .ok spec => (nonDebianDeps spec).all (fun a => done.contains a)
        | .error _ => false) && goodOrderB specs done) := rfl

theorem pp_c7 (w : World) (specs : PackageSpecs)
    (conds : UpdatePackagesConditions) (packages : List FullPackageName)
    (now : Nat) :
    ∀ (todo done later : List FullPackageName) (st : CacheState),
      todo.Nodup →
      (∀ x ∈ todo, x ∉ done) → (∀ x ∈ todo, x ∉ later) →
      (∀ x ∈ later, x ∉ done) →
      done.Nodup → later.Nodup → goodOrderB specs done = true →
      ((processPass w specs conds packages now todo done later st).2.1.Nodup ∧
       (processPass w specs conds packages now todo done later st).2.2.1.Nodup ∧
       (∀ x ∈ (processPass w specs conds packages now todo done later st).2.2.1,
         x ∉ (processPass w specs conds packages now todo done later st).2.1) ∧
       goodOrderB specs
         (processPass w specs conds packages now todo done later st).2.1 = true) := by
  intro todo
  induction todo with
  | nil =>
    intro done later st _ _ _ hld hdn hln hgo
    exact ⟨hdn, hln, hld, hgo⟩
  | cons p rest ih =>
    intro done later st hnd htd htl hld hdn hln hgo
    rw [List.nodup_cons] at hnd
    have hpd : p ∉ done := htd p (List.mem_cons_self p rest)
    have hpl : p ∉ later := htl p (List.mem_cons_self p rest)
    rw [processPass_cons]
    cases hlk : lookupSpecFor specs p with
    | error e => exact ⟨hdn, hln, hld, hgo⟩
    | ok spec =>
      simp only []
      by_cases hdr : depsReady spec done
      · rw [if_pos hdr]
        have hgo1 : goodOrderB specs (p :: done) = true := by
          rw [goodOrderB_cons, hlk, Bool.and_eq_true]
          refine ⟨?_, hgo⟩
          show (nonDebianDeps spec).all (fun a => done.contains a) = true
          rw [← depsReady_eq]
          exact hdr
        have htd1 : ∀ x ∈ rest, x ∉ p :: done := fun x hx => by
          rw [List.mem_cons]
          rintro (rfl | hx2)
          · exact hnd.1 hx
          · exact htd x (List.mem_cons_of_mem p hx) hx2
        have hld1 : ∀ x ∈ later, x ∉ p :: done := fun x hx => by
          rw [List.mem_cons]
          rintro (rfl | hx2)
          · exact hpl hx
          · exact hld x hx hx2
        have hdn1 : (p :: done).Nodup := List.nodup_cons.mpr ⟨hpd, hdn⟩
        by_cases hnb : needsBuildFor w st conds packages now p spec
        · rw [if_pos hnb]
          cases hup : updatePackage w st p spec with
          | mk r1 st1 =>
            cases r1 with
            | ok u =>
              simp only []
              exact ih (p :: done) later st1 hnd.2 htd1
                (fun x hx => htl x (List.mem_cons_of_mem p hx)) hld1 hdn1 hln hgo1
            | error e =>
              simp only []
              exact ⟨hdn, hln, hld, hgo⟩
        · rw [if_neg hnb]
          exact ih (p :: done) later st hnd.2 htd1
            (fun x hx => htl x (List.mem_cons_of_mem p hx)) hld1 hdn1 hln hgo1
      · rw [if_neg hdr]
        have htl1 : ∀ x ∈ rest, x ∉ later ++ [p] := fun x hx => by
          rw [List.mem_append, List.mem_singleton]
          rintro (hx2 | rfl)
          · exact htl x (List.mem_cons_of_mem p hx) hx2
          · exact hnd.1 hx
        have hld1 : ∀ x ∈ later ++ [p], x ∉ done := fun x hx => by
          rcases List.mem_append.mp hx with hx2 | hx2
          · exact hld x hx2
          · rw [List.mem_singleton] at hx2
            subst hx2
            exact hpd
        have hln1 : (later ++ [p]).Nodup := by
          rw [List.nodup_append]
          refine ⟨hln, List.nodup_singleton p, fun a ha hb => ?_⟩
          rw [List.mem_singleton] at hb
          subst hb
          exact hpl ha
        exact ih done (later ++ [p]) st hnd.2
          (fun x hx => htd x (List.mem_cons_of_mem p hx)) htl1 hld1 hdn hln1 hgo

theorem updateLoop_nil (w : World) (specs : PackageSpecs)
    (conds : UpdatePackagesConditions) (packages : List FullPackageName)
    (now fuel : Nat) (done : List FullPackageName) (st : CacheState) :
    updateLoop w specs conds packages now fuel [] done st = (.ok (), st, done) := by
  cases fuel <;> rfl

theorem updateLoop_zero (w : World) (specs : PackageSpecs)
    (conds : UpdatePackagesConditions) (packages : List FullPackageName)
    (now : Nat) (p : FullPackageName) (rest done : List FullPackageName)
    (st : CacheState) :
    updateLoop w specs conds packages now 0 (p :: rest) done st =
      (.error (str "internal: update loop fuel exhausted"), st, done) := rfl

theorem updateLoop_succ (w : World) (specs : PackageSpecs)
    (conds : UpdatePackagesConditions) (packages : List FullPackageName)
    (now fuel : Nat) (p : FullPackageName) (rest done : List FullPackageName)
    (st : CacheState) :
    updateLoop w specs conds packages now (fuel + 1) (p :: rest) done st =
      (match processPass w specs conds packages now (p :: rest) done [] st with
      | (.error e, done1, _, st1) => (.error e, st1, done1)
      | (.ok _, done1, later, st1) =>
        if later.length = (p :: rest).length then
          (.error (str "package dependencies are unsatisfiable for: " ++
            joinComma ((sortNames later).map displayFullPackageName)), st1, done1)
        else updateLoop w specs conds packages now fuel later done1 st1) := rfl

theorem loop_c7 (w : World) (specs : PackageSpecs)
    (conds : UpdatePackagesConditions) (packages : List FullPackageName)
    (now : Nat) :
    ∀ (fuel : Nat) (todo done : List FullPackageName) (st : CacheState),
      todo.Nodup → done.Nodup → (∀ x ∈ todo, x ∉ done) →
      goodOrderB specs done = true →
      ((updateLoop w specs conds packages now fuel todo done st).2.2.Nodup ∧
       goodOrderB specs
         (updateLoop w specs conds packages now fuel todo done st).2.2 = true) := by
  intro fuel
  induction fuel with
  | zero =>
    intro todo done st hnd hdn htd hgo
    cases todo with
    | nil => rw [updateLoop_nil]; exact ⟨hdn, hgo⟩
    | cons p rest => rw [updateLoop_zero]; exact ⟨hdn, hgo⟩
  | succ n ih =>
    intro todo done st hnd hdn htd hgo
    cases todo with
    | nil => rw [updateLoop_nil]; exact ⟨hdn, hgo⟩
    | cons p rest =>
      rw [updateLoop_succ]
      obtain ⟨hdn1, hln1, hld1, hgo1⟩ := pp_c7 w specs conds packages now
        (p :: rest) done [] st hnd htd
        (fun x _ hx => absurd hx (List.not_mem_nil x))
        (fun x hx => absurd hx (List.not_mem_nil x)) hdn List.nodup_nil hgo
      cases hpr : processPass w specs conds packages now (p :: rest) done [] st with
      | mk r1 q1 =>
        obtain ⟨done1, later1, st1⟩ := q1
        rw [hpr] at hdn1 hln1 hld1 hgo1
        simp only [] at hdn1 hln1 hld1 hgo1
        cases r1 with
        | error e => exact ⟨hdn1, hgo1⟩
        | ok u =>
          simp only []
          by_cases hlen : later1.length = (p :: rest).length
          · rw [if_pos hlen]
            exact ⟨hdn1, hgo1⟩
          · rw [if_neg hlen]
            exact ih later1 done1 st1 hln1 hdn1 hld1 hgo1

theorem loop_phi (w : World) (specs : PackageSpecs)
    (conds : UpdatePackagesConditions) (packages : List FullPackageName)
    (now : Nat) (Φ : List FullPackageName → CacheState → Prop) :
    ∀ (fuel : Nat) (todo done : List FullPackageName) (st : CacheState),
      (∀ q ∈ todo, StepOk w specs conds packages now Φ q) →
      Φ done st →
      (updateLoop w specs conds packages now fuel todo done st).1 = .ok () →
      Φ (updateLoop w specs conds packages now fuel todo done st).2.2
        (updateLoop w specs conds packages now fuel todo done st).2.1 := by
  intro fuel
  induction fuel with
  | zero =>
    intro todo done st hstep hphi hok
    cases todo with
    | nil => rw [updateLoop_nil] at hok ⊢; exact hphi
    | cons p rest =>
      rw [updateLoop_zero] at hok
      exact absurd hok (by simp)
  | succ n ih =>
    intro todo done st hstep hphi hok
    cases todo with
    | nil => rw [updateLoop_nil] at hok ⊢; exact hphi
    | cons p rest =>
      rw [updateLoop_succ] at hok ⊢
      cases hpr : processPass w specs conds packages now (p :: rest) done [] st with
      | mk r1 q1 =>
        obtain ⟨done1, later1, st1⟩ := q1
        rw [hpr] at hok
        cases r1 with
        | error e => exact absurd hok (by simp)
        | ok u =>
          simp only [] at hok ⊢
          have hpassOk : (processPass w specs conds packages now
              (p :: rest) done [] st).1 = .ok () := by
            rw [hpr]
          have hphi1 := pp_phi w specs conds packages now Φ (p :: rest) done [] st
            hstep hphi hpassOk
          rw [hpr] at hphi1
          simp only [] at hphi1
          by_cases hlen : later1.length = (p :: rest).length
          · rw [if_pos hlen] at hok
            exact absurd hok (by simp)
          · rw [if_neg hlen] at hok ⊢
            have hstep1 : ∀ q ∈ later1, StepOk w specs conds packages now Φ q := by
              intro q hq
              have hq2 : q ∈ (processPass w specs conds packages now
                  (p :: rest) done [] st).2.2.1 := by rw [hpr]; exact hq
              rcases pp_later_sub w specs conds packages now (p :: rest) done [] st
                  q hq2 with h | h
              · exact hstep q h
              · exact absurd h (List.not_mem_nil q)
            exact ih later1 done1 st1 hstep1 hphi1 hok

theorem loop_mem (w : World) (specs : PackageSpecs)
    (conds : UpdatePackagesConditions) (packages : List FullPackageName)
    (now : Nat) (p0 : FullPackageName) :
    ∀ (fuel : Nat) (todo done : List FullPackageName) (st : CacheState),
      (p0 ∈ todo ∨ p0 ∈ done) →
      (updateLoop w specs conds packages now fuel todo done st).1 = .ok () →
      p0 ∈ (updateLoop w specs conds packages now fuel todo done st).2.2 := by
  intro fuel
  induction fuel with
  | zero =>
    intro todo done st hmem hok
    cases todo with
    | nil =>
      rw [updateLoop_nil] at hok ⊢
      rcases hmem with h | h
      · exact absurd h (List.not_mem_nil p0)
      · exact h
    | cons p rest =>
      rw [updateLoop_zero] at hok
      exact absurd hok (by simp)
  | succ n ih =>
    intro todo done st hmem hok
    cases todo with
    | nil =>
      rw [updateLoop_nil] at hok ⊢
      rcases hmem with h | h
      · exact absurd h (List.not_mem_nil p0)
      · exact h
    | cons p rest =>
      rw [updateLoop_succ] at hok ⊢
      cases hpr : processPass w specs conds packages now (p :: rest) done [] st with
      | mk r1 q1 =>
        obtain ⟨done1, later1, st1⟩ := q1
        rw [hpr] at hok
        cases r1 with
        | error e => exact absurd hok (by simp)
        | ok u =>
          simp only [] at hok ⊢
          have hpassOk : (processPass w specs conds packages now
              (p :: rest) done [] st).1 = .ok () := by
            rw [hpr]
          by_cases hlen : later1.length = (p :: rest).length
          · rw [if_pos hlen] at hok
            exact absurd hok (by simp)
          · rw [if_neg hlen] at hok ⊢
            have hmem1 : p0 ∈ later1 ∨ p0 ∈ done1 := by
              rcases hmem with h | h
              · rcases pp_prog w specs conds packages now p0 (p :: rest) done [] st
                    hpassOk h with h2 | h2
                · rw [hpr] at h2; exact Or.inr h2
                · rw [hpr] at h2; exact Or.inl h2
              · have h2 := pp_done_mono w specs conds packages now (p :: rest)
                  done [] st p0 h
                rw [hpr] at h2
                exact Or.inr h2
            exact ih later1 done1 st1 hmem1 hok

theorem updatePackages_eq (w : World) (specs : PackageSpecs)
    (packages : List FullPackageName) (conds : UpdatePackagesConditions)
    (st : CacheState) (now : Nat) :
    updatePackages w specs packages conds st now =
      (match transitiveDepends specs true packages with
      | .error e => (.error e, st, [])
      | .ok closure =>
        updateLoop w specs conds packages now
          ((sortNames (closure.filter (fun p => !decide (p.ns = .Debian)))).length + 1)
          (sortNames (closure.filter (fun p => !decide (p.ns = .Debian)))) [] st) :=
  rfl

theorem stale_false_tar (w : World) (st : CacheState) (p : FullPackageName)
    (spec : PackageSpec) (now : Nat)
    (h : packageIsStale w st p spec now = false) :
    (st.files (tarName p)).isSome = true := by
  cases hf : st.files (tarName p) with
  | some fd => rfl
  | none =>
    unfold packageIsStale at h
    have hl : lastBuilt st p = none := by
      unfold lastBuilt
      rw [hf]
      rfl
    rw [hl] at h
    exact absurd h (by simp)

theorem needsBuild_false_stale (w : World) (st : CacheState)
    (packages : List FullPackageName) (now : Nat) (p : FullPackageName)
    (spec : PackageSpec) (hup : spec.update.isSome = true)
    (hmem : packages.contains p = true)
    (h : needsBuildFor w st ⟨.IfStale, .IfStale⟩ packages now p spec = false) :
    packageIsStale w st p spec now = false := by
  unfold needsBuildFor at h
  have h1 : spec.update.isNone = false := by
    cases hspec : spec.update with
    | none => rw [hspec] at hup; exact absurd hup (by simp)
    | some v => rfl
  rw [h1, hmem] at h
  simpa using h

theorem needsBuild_always (w : World) (st : CacheState)
    (packages : List FullPackageName) (now : Nat) (p : FullPackageName)
    (spec : PackageSpec) (hup : spec.update.isSome = true)
    (hmem : packages.contains p = true) :
    needsBuildFor w st ⟨.Always, .Always⟩ packages now p spec = true := by
  unfold needsBuildFor
  have h1 : spec.update.isNone = false := by
    cases hspec : spec.update with
    | none => rw [hspec] at hup; exact absurd hup (by simp)
    | some v => rfl
  rw [h1, hmem]
  simp

theorem tarName_ne_testingTarName_short (p q : FullPackageName)
    (h : p.asFilenameComponent.length < q.asFilenameComponent.length + 8) :
    tarName p ≠ testingTarName q := by
  intro he
  have hl := congrArg List.length he
  simp only [tarName, testingTarName, List.length_append] at hl
  have h4 : (str ".tar").length = 4 := rfl
  have h12 : (str ".testing.tar").length = 12 := rfl
  rw [h4, h12] at hl
  omega

theorem filter_unique_mem {α : Type} (pred : α → Bool) :
    ∀ (l : List α) (a : α), l.Nodup → a ∈ l → pred a = true →
      (∀ x ∈ l, x = a ∨ pred x = false) →
      l.filter pred = [a] := by
  intro l
  induction l with
  | nil => intro a _ ha _ _; exact absurd ha (List.not_mem_nil a)
  | cons b rest ih =>
    intro a hnd ha hpa hall
    rw [List.nodup_cons] at hnd
    rw [List.filter_cons]
    rcases hall b (List.mem_cons_self b rest) with rfl | hpb
    · have hrest : ∀ x ∈ rest, pred x = false := by
        intro x hx
        rcases hall x (List.mem_cons_of_mem _ hx) with rfl | h
        · exact absurd hx hnd.1
        · exact h
      have hnil : rest.filter pred = [] := List.filter_eq_nil_iff.mpr (fun x hx => by
        rw [hrest x hx]; simp)
      rw [if_pos hpa, hnil]
    · rw [if_neg (by rw [hpb]; simp)]
      have ha2 : a ∈ rest := by
        rcases List.mem_cons.mp ha with rfl | h
        · rw [hpa] at hpb; exact absurd hpb (by simp)
        · exact h
      exact ih a hnd.2 ha2 hpa (fun x hx => hall x (List.mem_cons_of_mem _ hx))

/-- C7: in every `update_packages` run, the decision trace (newest decision
first) never decides a package twice, and every decided package resolved to a
spec whose non-Debian immediate `depends`/`build_depends` entries were all
decided strictly earlier — builds respect dependency order and happen at most
once per package. -/
theorem claim_C7_theorem (w : World) (specs : PackageSpecs)
    (packages : List FullPackageName) (conds : UpdatePackagesConditions)
    (st : CacheState) (now : Nat) :
    (updatePackages w specs packages conds st now).2.2.Nodup ∧
    goodOrderB specs (updatePackages w specs packages conds st now).2.2 = true := by
  rw [updatePackages_eq]
  cases hc : transitiveDepends specs true packages with
  | error e => exact ⟨List.nodup_nil, rfl⟩
  | ok closure =>
    simp only []
    have hnd := (transitiveDepends_props specs true packages closure hc).2
    exact loop_c7 w specs conds packages now
      ((sortNames (closure.filter (fun p => !decide (p.ns = .Debian)))).length + 1)
      (sortNames (closure.filter (fun p => !decide (p.ns = .Debian)))) [] st
      (nodup_sortNames _ (hnd.filter _)) List.nodup_nil
      (fun x _ => List.not_mem_nil x) rfl

/-- C4 counterexample: the claim fails in both directions.  With a stale
cached artifact and a failing build, `update_packages({p}, IfStale)` returns
success yet leaves `p.failed` in the cache; with a package that has no
`update.sh`, it returns success yet no `p.tar` exists. -/
theorem claim_C4_counterexample :
    ((updatePackages c4FailWorld c4StaleSpecs [⟨.Root, str "p"⟩]
        ⟨.IfStale, .IfStale⟩ c4StaleState 5).1 = .ok () ∧
      ((updatePackages c4FailWorld c4StaleSpecs [⟨.Root, str "p"⟩]
        ⟨.IfStale, .IfStale⟩ c4StaleState 5).2.1.files
          (failedMarkerName ⟨.Root, str "p"⟩)).isSome = true) ∧
    ((updatePackages c4World c4SpecsNoScript [⟨.Root, str "p"⟩]
        ⟨.IfStale, .IfStale⟩ c4State 5).1 = .ok () ∧
      (updatePackages c4World c4SpecsNoScript [⟨.Root, str "p"⟩]
        ⟨.IfStale, .IfStale⟩ c4State 5).2.1.files
          (tarName ⟨.Root, str "p"⟩) = none) := by
  decide

/-- C4 (amended): if the named package resolves to a spec that has an
`update.sh`, and its `.tar` name cannot collide with any `.testing.tar`
staging name, then a successful `update_packages({p}, IfStale)` run leaves
`<package-cache>/<p>.tar` in the cache.  (The `.failed`-absence half of the
original claim is refuted by the counterexample.) -/
theorem claim_C4_theorem (w : World) (specs : PackageSpecs)
    (p0 : FullPackageName) (spec0 : PackageSpec) (st : CacheState) (now : Nat)
    (hlk : lookupSpecFor specs p0 = .ok spec0)
    (hup : spec0.update.isSome = true)
    (halias : ∀ q : FullPackageName, tarName p0 ≠ testingTarName q)
    (hok : (updatePackages w specs [p0] ⟨.IfStale, .IfStale⟩ st now).1 = .ok ()) :
    (((updatePackages w specs [p0] ⟨.IfStale, .IfStale⟩ st now).2.1).files
      (tarName p0)).isSome = true := by
  rw [updatePackages_eq] at hok ⊢
  cases hc : transitiveDepends specs true [p0] with
  | error e =>
    rw [hc] at hok
    exact absurd hok (by simp)
  | ok closure =>
    rw [hc] at hok
    simp only [] at hok ⊢
    have hnsd : p0.ns ≠ .Debian := by
      intro h
      unfold lookupSpecFor at hlk
      rw [h] at hlk
      exact absurd hlk (by simp)
    have hmem0 : p0 ∈ closure :=
      (transitiveDepends_props specs true [p0] closure hc).1 p0
        (List.mem_cons_self p0 [])
    have hmemT : p0 ∈ sortNames (closure.filter (fun p => !decide (p.ns = .Debian))) := by
      rw [mem_sortNames, List.mem_filter]
      exact ⟨hmem0, by simp [hnsd]⟩
    have hstep : ∀ q ∈ sortNames (closure.filter (fun p => !decide (p.ns = .Debian))),
        StepOk w specs ⟨.IfStale, .IfStale⟩ [p0] now
          (fun done stx => p0 ∈ done → (stx.files (tarName p0)).isSome = true) q := by
      intro q _ spec done0 st0 hlkq hdr hphi0
      constructor
      · intro hnb hp0
        rcases List.mem_cons.mp hp0 with heq | hp0d
        · subst heq
          have hspec : spec = spec0 := by
            rw [hlk] at hlkq
            exact (Except.ok.inj hlkq).symm
          rw [hspec] at hnb
          exact stale_false_tar w st0 p0 spec0 now
            (needsBuild_false_stale w st0 [p0] now p0 spec0 hup (by simp) hnb)
        · exact hphi0 hp0d
      · intro st2 hnb hupd hp0
        rcases List.mem_cons.mp hp0 with heq | hp0d
        · subst heq
          have h1 := updatePackage_ok_tar w st0 p0 spec (by rw [hupd])
          rw [hupd] at h1
          exact h1
        · have h1 := updatePackage_files_isSome w st0 q spec (tarName p0)
            (halias q) (tarName_ne_failedMarkerName p0 q) (hphi0 hp0d)
          rw [hupd] at h1
          exact h1
    have hphiF := loop_phi w specs ⟨.IfStale, .IfStale⟩ [p0] now
      (fun done stx => p0 ∈ done → (stx.files (tarName p0)).isSome = true)
      ((sortNames (closure.filter (fun p => !decide (p.ns = .Debian)))).length + 1)
      (sortNames (closure.filter (fun p => !decide (p.ns = .Debian)))) [] st
      hstep (fun h => absurd h (List.not_mem_nil p0)) hok
    exact hphiF (loop_mem w specs ⟨.IfStale, .IfStale⟩ [p0] now p0
      ((sortNames (closure.filter (fun p => !decide (p.ns = .Debian)))).length + 1)
      (sortNames (closure.filter (fun p => !decide (p.ns = .Debian)))) [] st
      (Or.inl hmemT) hok)

/-- C4 witness: the amended theorem applied to a concrete one-package
registry whose build succeeds from an empty cache. -/
theorem claim_C4_witness :
    (((updatePackages c4World c4Specs [⟨.Root, str "p"⟩] ⟨.IfStale, .IfStale⟩
        c4State 5).2.1).files (tarName ⟨.Root, str "p"⟩)).isSome = true :=
  claim_C4_theorem c4World c4Specs ⟨.Root, str "p"⟩ (mkRootSpec [] true 0)
    c4State 5 (by decide) (by decide)
    (fun q => tarName_ne_testingTarName_short ⟨.Root, str "p"⟩ q (by
      have h1 : (FullPackageName.mk .Root (str "p")).asFilenameComponent.length = 1 := by
        decide
      rw [h1]
      omega))
    (by decide)

/-- C5: when the named package's build fails but a cached artifact exists
(and its dependencies are all Debian packages, so nothing else is rebuilt),
`update_packages({P}, Always)` returns success, creates the `P.failed`
marker, leaves `P.tar` unchanged, and emits exactly the
"using stale version of P" warning. -/
theorem claim_C5_theorem (w : World) (specs : PackageSpecs)
    (P : FullPackageName) (spec0 : PackageSpec) (st : CacheState) (now : Nat)
    (clos : List FullPackageName)
    (hclos : transitiveDepends specs true [P] = .ok clos)
    (hdeb : ∀ q ∈ clos, q = P ∨ q.ns = .Debian)
    (hns : (!decide (P.ns = .Debian)) = true)
    (hlk : lookupSpecFor specs P = .ok spec0)
    (hndeps : nonDebianDeps spec0 = [])
    (hup : spec0.update.isSome = true)
    (hfail : w.buildResult P = none)
    (htar : (st.files (tarName P)).isSome = true) :
    (updatePackages w specs [P] ⟨.Always, .Always⟩ st now).1 = .ok () ∧
    (updatePackages w specs [P] ⟨.Always, .Always⟩ st now).2.1.files
      (failedMarkerName P) = some ⟨0, 0⟩ ∧
    (updatePackages w specs [P] ⟨.Always, .Always⟩ st now).2.1.files (tarName P) =
      st.files (tarName P) ∧
    (updatePackages w specs [P] ⟨.Always, .Always⟩ st now).2.1.warnings =
      st.warnings ++
        [str "using stale version of " ++ displayFullPackageName P ++ str ": " ++
          (str "failed to update package: " ++ displayFullPackageName P ++
            str ": " ++
            (str "error building package " ++ displayFullPackageName P))] := by
  have hprops := transitiveDepends_props specs true [P] clos hclos
  have hPin : P ∈ clos := hprops.1 P (List.mem_cons_self P [])
  have hfilter : clos.filter (fun p => !decide (p.ns = .Debian)) = [P] := by
    refine filter_unique_mem (fun p => !decide (p.ns = .Debian)) clos P
      hprops.2 hPin hns ?_
    intro x hx
    rcases hdeb x hx with h | h
    · exact Or.inl h
    · exact Or.inr (by simp [h])
  rw [updatePackages_eq, hclos]
  simp only []
  rw [hfilter]
  have hsn : sortNames [P] = [P] := rfl
  rw [hsn]
  have hdr : depsReady spec0 [] = true := by
    rw [depsReady_eq, hndeps]
    rfl
  rw [updateLoop_succ, processPass_cons, hlk]
  simp only []
  rw [if_pos hdr, if_pos (needsBuild_always w st [P] now P spec0 hup (by simp))]
  obtain ⟨hfb1, hfbtar, hfbmark, hfbwarn⟩ := updatePackage_fallback w st P spec0 hfail htar
  cases hu : updatePackage w st P spec0 with
  | mk r1 st1 =>
    rw [hu] at hfb1 hfbtar hfbmark hfbwarn
    simp only [] at hfb1 hfbtar hfbmark hfbwarn
    subst hfb1
    simp only []
    rw [processPass_nil]
    simp only []
    rw [if_neg (show ¬([] : List FullPackageName).length = [P].length by simp)]
    rw [updateLoop_nil]
    exact ⟨rfl, hfbmark, hfbtar, hfbwarn⟩

/-- C5 witness: the theorem applied to a concrete registry where `P`
depends only on a Debian package, its build fails, and `P.tar` (mtime 10,
content 7) is cached. -/
theorem claim_C5_witness :
    (updatePackages c5World c5Specs [⟨.Root, str "P"⟩] ⟨.Always, .Always⟩
      c5State 5).1 = .ok () ∧
    (updatePackages c5World c5Specs [⟨.Root, str "P"⟩] ⟨.Always, .Always⟩
      c5State 5).2.1.files (failedMarkerName ⟨.Root, str "P"⟩) = some ⟨0, 0⟩ ∧
    (updatePackages c5World c5Specs [⟨.Root, str "P"⟩] ⟨.Always, .Always⟩
      c5State 5).2.1.files (tarName ⟨.Root, str "P"⟩) =
      c5State.files (tarName ⟨.Root, str "P"⟩) ∧
    (updatePackages c5World c5Specs [⟨.Root, str "P"⟩] ⟨.Always, .Always⟩
      c5State 5).2.1.warnings =
      c5State.warnings ++
        [str "using stale version of " ++ displayFullPackageName ⟨.Root, str "P"⟩ ++
          str ": " ++
          (str "failed to update package: " ++
            displayFullPackageName ⟨.Root, str "P"⟩ ++ str ": " ++
            (str "error building package " ++
              displayFullPackageName ⟨.Root, str "P"⟩))] :=
  claim_C5_theorem c5World c5Specs ⟨.Root, str "P"⟩
    ⟨⟨false, [(.Debian, [str "libfoo"])], []⟩, 0, some (str "./update.sh"), none⟩
    c5State 5
    [⟨.Root, str "P"⟩, ⟨.Debian, str "libfoo"⟩]
    (by decide) (by decide) (by decide) (by decide) (by decide) (by decide)
    (by decide) (by decide)

end Cubicle
